import Mathlib

/-!
Verification of the claim-controller repository: a shallow embedding of the
claim lifecycle, the reconciler's readiness evaluation and expiry handling,
the warm-pool allocator and the HTTP API helpers, with theorems settling the
frozen claims about them.

Conventions of the embedding:
* Go `time.Time` instants and `time.Duration` values are integers (nanoseconds,
  as in Go's `int64` duration representation); `t.After(u)` is `u < t`,
  `t.Before(u)` is `t < u`, `time.Until(t)` is `t - now`.
* A timestamp annotation is `Option Int`: `some t` when the raw string is
  non-empty and parses under RFC3339, `none` when absent or unparseable
  (the code always branches on exactly that disjunction).
* `strings.EqualFold` is modelled as equality of lowercasings (all compared
  values in this code are ASCII); `strings.TrimSpace` as `String.trim`.
* Kubernetes objects reached through the typed client are modelled by
  structures carrying exactly the fields the code reads; the object store is
  a list of claim records, the cluster of materialized resources a function
  from lookup keys to optional live objects.
-/

namespace ClaimController

/-- Character-level whitespace trim: Go `strings.TrimSpace` (the values
compared here are ASCII, where Go's and Lean's whitespace notions agree). -/
def trimChars (cs : List Char) : List Char :=
  ((cs.dropWhile Char.isWhitespace).reverse.dropWhile Char.isWhitespace).reverse

/-- Go `strings.TrimSpace` on strings. -/
def trimStr (s : String) : String :=
  String.mk (trimChars s.data)

/-- Go `strings.ToLower` (ASCII values only in this code). -/
def toLowerStr (s : String) : String :=
  String.mk (s.data.map Char.toLower)

/-- `strings.EqualFold` restricted to the ASCII values this code compares. -/
def eqFold (a b : String) : Bool :=
  toLowerStr a = toLowerStr b

/-- The repeated Go idiom `strings.EqualFold(strings.TrimSpace(v), "true")`
used for the pre-provisioned and lazy-provisioning annotations. -/
def trimFoldTrue (v : String) : Bool :=
  eqFold (trimStr v) "true"

/-- Splitting on a separator character, Go `strings.Split` semantics (the
empty input yields one empty token); `acc` holds the current token
reversed. -/
def splitOnCharAux (sep : Char) : List Char → List Char → List (List Char)
  | [], acc => [acc.reverse]
  | c :: rest, acc =>
    if c = sep then acc.reverse :: splitOnCharAux sep rest []
    else splitOnCharAux sep rest (c :: acc)

/-- Go `strings.Split(s, string(sep))` on the character level. -/
def splitOnChar (sep : Char) (cs : List Char) : List (List Char) :=
  splitOnCharAux sep cs []

/-- Split at the first occurrence of a separator, Go
`strings.SplitN(s, string(sep), 2)`: `none` when the separator is absent
(one-element `SplitN` result). -/
def splitFirst (sep : Char) : List Char → Option (List Char × List Char)
  | [] => none
  | c :: rest =>
    if c = sep then some ([], rest)
    else
      match splitFirst sep rest with
      | none => none
      | some (l, r) => some (c :: l, r)

/-! ## Template loader: `parseKeyValuePairs` and return-value aggregation
(src/internal/template/loader.go) -/

/-- Return-value maps: association lists in insertion order, no duplicate
keys (maintained by `upsertPair`), mirroring a Go `map[string]string`
together with the deterministic order our folds traverse it in. -/
abbrev RetMap := List (String × String)

/-- Go `out[key] = value` on the association-list model: replace the entry
holding the key in place if one exists, append otherwise (the lists built
here never hold a key twice). -/
def upsertPair : RetMap → String → String → RetMap
  | [], k, v => [(k, v)]
  | p :: rest, k, v =>
    if p.1 = k then (k, v) :: rest else p :: upsertPair rest k v

/-- Last binding of a key in a raw pair list (later entries win). -/
def lookupLastPair : List (String × String) → String → Option String
  | [], _ => none
  | p :: rest, q =>
    match lookupLastPair rest q with
    | some v => some v
    | none => if p.1 = q then some p.2 else none

/-- No key occurs twice: the invariant `upsertPair` maintains, making the
association lists extensionally faithful to Go maps. -/
def keysNodup (m : RetMap) : Prop :=
  (m.map Prod.fst).Nodup

/-- Go map lookup `m[k]` (with presence flag) on the model. -/
def lookupPair (m : RetMap) (k : String) : Option String :=
  (m.find? (fun p => p.1 = k)).map (fun p => p.2)

/-- One token of `parseKeyValuePairs`: trim, skip empty tokens, split on the
first `=` (Go `strings.SplitN(token, "=", 2)`), skip `=`-less tokens and
empty keys, then upsert the trimmed key/value. -/
def parseKVToken (out : RetMap) (tokenChars : List Char) : RetMap :=
  let token := trimChars tokenChars
  if token = [] then out
  else
    match splitFirst '=' token with
    | none => out
    | some (k, v) =>
      let key := trimChars k
      if key = [] then out
      else upsertPair out (String.mk key) (String.mk (trimChars v))

/-- `parseKeyValuePairs` (loader.go): newlines and semicolons are replaced by
commas (Go `strings.NewReplacer("\n", ",", ";", ",")`, a character map
here), the result split on commas, each token parsed by `parseKVToken`. -/
def parseKeyValuePairs (s : String) : RetMap :=
  let normalized := s.data.map (fun c => if c = '\n' ∨ c = ';' then ',' else c)
  (splitOnChar ',' normalized).foldl parseKVToken []

/-- The merge loop of `aggregateReturnValues` (loader.go): each pair parsed
from one resource's `claim.controller/return` directive is written into the
target map, so later writes override earlier ones. -/
def mergeReturnValues (target : RetMap) (directive : String) : RetMap :=
  (parseKeyValuePairs directive).foldl (fun acc p => upsertPair acc p.1 p.2) target

/-! ## HTTP API: TTL selection (utils.go `ttlFromRequest`) -/

/-- The observable shapes of a `POST /claim` (or `/renew`) body, as
distinguished by `ttlFromRequest`: no body at all, a body whose JSON decode
hits `io.EOF` (empty body), a body that fails to decode, or a decoded
`claimRequest` carrying its raw `ttl` string. -/
inductive RequestBody where
  | noBody : RequestBody
  | emptyBody : RequestBody
  | badJSON : RequestBody
  | decoded (ttlRaw : String) : RequestBody
deriving DecidableEq, Repr

/-- `ttlFromRequest` (utils.go). `parseDuration` stands for Go
`time.ParseDuration` (`none` = parse error); `Except.error` outcomes are
mapped to HTTP 400 by the handlers. -/
def ttlFromRequest (parseDuration : String → Option Int)
    (defaultTTL maxTTL : Int) : RequestBody → Except String Int
  | .noBody => .ok defaultTTL
  | .emptyBody => .ok defaultTTL
  | .badJSON => .error "invalid request body"
  | .decoded ttlRaw =>
    if trimStr ttlRaw = "" then .ok defaultTTL
    else
      match parseDuration (trimStr ttlRaw) with
      | none => .error "invalid ttl duration"
      | some ttl =>
        if ttl ≤ 0 then .error "ttl must be greater than 0"
        else if maxTTL < ttl then .ok maxTTL
        else .ok ttl

/-- The status code `handleClaim`/`handleRenew` derive from `ttlFromRequest`:
any error becomes a 400 response, otherwise the effective TTL is used. -/
def ttlRequestStatus (parseDuration : String → Option Int)
    (defaultTTL maxTTL : Int) (body : RequestBody) : Nat ⊕ Int :=
  match ttlFromRequest parseDuration defaultTTL maxTTL body with
  | .error _ => Sum.inl 400
  | .ok ttl => Sum.inr ttl

/-! ## Reconciler requeue-delay computation (controller, `Reconcile`) -/

/-- One nanosecond-denominated second, as in Go's `time.Second`. -/
def second : Int := 1000000000

/-- The requeue-delay computation at the end of `Reconcile`:
start from `time.Until(expiresAt)` (here `untilExpiry`), replace it by the
reconcile interval for pre-provisioned claims, then clamp below by 5s, cap
at 3s when not all resources are ready, and finally cap by a positive
reconcile interval. -/
def computeNextCheck (reconcileInterval : Int) (isPreProvisioned allReady : Bool)
    (untilExpiry : Int) : Int :=
  let n0 := if isPreProvisioned then reconcileInterval else untilExpiry
  let n1 := if n0 < 5 * second then 5 * second else n0
  let n2 := if ¬allReady ∧ 3 * second < n1 then 3 * second else n1
  if 0 < reconcileInterval ∧ reconcileInterval < n2 then reconcileInterval else n2

/-- The requeue delay as the spec's clamp pipeline describes it: the starting
value (reconcile interval when pre-provisioned, otherwise time until expiry)
clamped to at least 5s, then to at most 3s when not all ready, then to at
most a positive reconcile interval. -/
def specNextCheck (reconcileInterval : Int) (isPreProvisioned allReady : Bool)
    (untilExpiry : Int) : Int :=
  let base := if isPreProvisioned then reconcileInterval else untilExpiry
  let s1 := max base (5 * second)
  let s2 := if allReady then s1 else min s1 (3 * second)
  if 0 < reconcileInterval then min reconcileInterval s2 else s2

/-! ## Readiness predicates (controller, `assessResourceReadiness` /
`conditionStatus`) -/

/-- One entry of `status.conditions` with the two fields
`conditionStatus` reads (`unstructured.NestedString`, yielding `""` when the
field is absent or not a string). -/
structure Cond where
  condType : String
  condStatus : String
deriving DecidableEq, Repr

/-- The fields of a live object that `assessResourceReadiness` reads through
`unstructured` accessors. Its kind is carried separately (the typed `Get`
fixes the GVK of the fetched object). `conditions = none` models
`NestedSlice` reporting the field as not found; integer fields are `0` when
absent, as `NestedInt64` returns the zero value. -/
structure LiveObj where
  phase : String
  conditions : Option (List Cond)
  specReplicas : Int
  readyReplicas : Int
deriving DecidableEq, Repr

/-- Go `strconv.ParseBool` applied, as in `conditionStatus`, to an already
lowercased string: only the six lowercase forms can succeed. -/
def parseBoolLower (s : String) : Option Bool :=
  if s = "1" ∨ s = "t" ∨ s = "true" then some true
  else if s = "0" ∨ s = "f" ∨ s = "false" then some false
  else none

/-- The scan inside `conditionStatus`: first condition whose type matches
case-insensitively decides the result; an unparseable status yields
`(false, true)` (found but not true). -/
def conditionScan : List Cond → String → Bool × Bool
  | [], _ => (false, false)
  | c :: rest, conditionType =>
    if eqFold c.condType conditionType then
      match parseBoolLower (toLowerStr c.condStatus) with
      | none => (false, true)
      | some b => (b, true)
    else conditionScan rest conditionType

/-- `conditionStatus` (controller): `(status, found)` of the condition of the
given type, `(false, false)` when the conditions field is missing. -/
def conditionStatus (conditions : Option (List Cond)) (conditionType : String) :
    Bool × Bool :=
  match conditions with
  | none => (false, false)
  | some cs => conditionScan cs conditionType

/-- `assessResourceReadiness` (controller). The object's kind is compared
after lowercasing; Pod and Deployment kinds get dedicated predicates, any
other kind is ready because the object exists. -/
def assessResourceReadiness (kind : String) (obj : LiveObj) : Bool × String :=
  if toLowerStr kind = "pod" then
    if obj.phase = "Succeeded" then (true, "pod succeeded")
    else if obj.phase = "Failed" then (false, "pod failed")
    else
      let ready := conditionStatus obj.conditions "Ready"
      if obj.phase = "Running" ∧ ready.2 ∧ ready.1 then (true, "pod ready")
      else (false, "pod phase=" ++ obj.phase)
  else if toLowerStr kind = "deployment" then
    let desired := if obj.specReplicas = 0 then 1 else obj.specReplicas
    let available := conditionStatus obj.conditions "Available"
    if desired ≤ obj.readyReplicas ∧ (¬available.2 ∨ available.1) then
      (true, "deployment ready (" ++ toString obj.readyReplicas ++ "/" ++
        toString desired ++ ")")
    else
      (false, "deployment not ready (" ++ toString obj.readyReplicas ++ "/" ++
        toString desired ++ ")")
  else (true, "resource exists")

/-- Number of conditions whose type matches the given one (case-insensitively).
Live Kubernetes objects carry at most one condition per type. -/
def matchingConditions (conditions : Option (List Cond)) (conditionType : String) : Nat :=
  ((conditions.getD []).filter (fun c => eqFold c.condType conditionType)).length

/-- A condition of the given type with status `True` exists — the spec's
phrasing of the Pod `Ready` / Deployment `Available` requirement, with status
`True` read by Go boolean parsing as the code does. -/
def hasTrueCondition (conditions : Option (List Cond)) (conditionType : String) : Prop :=
  ∃ c ∈ conditions.getD [], eqFold c.condType conditionType ∧
    parseBoolLower (toLowerStr c.condStatus) = some true

instance (conditions : Option (List Cond)) (conditionType : String) :
    Decidable (hasTrueCondition conditions conditionType) := by
  unfold hasTrueCondition
  infer_instance

/-- Spec-side Pod readiness: phase `Running` with a `Ready` condition of
status `True`, or phase `Succeeded`. -/
def podReadySpec (obj : LiveObj) : Prop :=
  (obj.phase = "Running" ∧ hasTrueCondition obj.conditions "Ready") ∨
    obj.phase = "Succeeded"

/-- Spec-side Deployment readiness: ready replicas reach the desired count
(`spec.replicas`, defaulting to 1 when unset or zero), and every `Available`
condition, if present, has status `True`. -/
def deploymentReadySpec (obj : LiveObj) : Prop :=
  (if obj.specReplicas = 0 then 1 else obj.specReplicas) ≤ obj.readyReplicas ∧
    ∀ c ∈ obj.conditions.getD [], eqFold c.condType "Available" →
      parseBoolLower (toLowerStr c.condStatus) = some true

/-! ## Data model: rendered resources, claims, the object store and the
cluster of materialized resources -/

/-- One rendered resource as frozen on a claim (`templatesFromClaim` decodes
it from the `renderedResources` data key). `namespaced` is the RESTMapper
scope answer for its GVK; `lazyAnn` is the raw
`claim.controller/lazy-provisionning` annotation (`""` when absent);
`specReplicas` is the `spec.replicas` value the created object would carry. -/
structure ResourceTemplate where
  apiVersion : String
  kind : String
  name : String
  namespaced : Bool
  lazyAnn : String
  specReplicas : Int
deriving DecidableEq, Repr

/-- The lookup key of a typed `Get`/`Delete`/`Create` against the cluster:
GVK plus name, with the claim's namespace filled in only for namespaced
resources (`""` plays the empty namespace of cluster-scoped objects). -/
structure ResourceKey where
  apiVersion : String
  kind : String
  ns : String
  name : String
deriving DecidableEq, Repr

/-- The key a resource template resolves to for a claim in namespace `ns`. -/
def keyOf (ns : String) (t : ResourceTemplate) : ResourceKey :=
  { apiVersion := t.apiVersion, kind := t.kind,
    ns := if t.namespaced then ns else "", name := t.name }

/-- The `resourceReadiness` record serialized into `claimResourcesStatus`. -/
structure ResourceReadiness where
  kind : String
  name : String
  ns : String
  ready : Bool
  message : String
deriving DecidableEq, Repr

/-- A claim record as stored on its ConfigMap: the label/annotation/data
fields the core reads. `managed` is whether the managed-by label carries the
controller's value; `preProvisionedAnn` is the raw annotation string;
timestamp annotations are `some t` exactly when non-empty and RFC3339-parseable;
`renderedResources = none` models a missing or undecodable
`renderedResources` data key. -/
structure StoreClaim where
  name : String
  ns : String
  managed : Bool
  preProvisionedAnn : String
  expiresAtAnn : Option Int
  claimedAtAnn : Option Int
  creationTimestamp : Int
  renderedResources : Option (List ResourceTemplate)
  claimStatus : String
  claimStatusMessage : String
  claimResourcesStatus : List ResourceReadiness
deriving DecidableEq, Repr

/-- The object store: the claims currently persisted. -/
abbrev Store := List StoreClaim

/-- The cluster's materialized resources, as the typed client sees them:
`none` is a not-found `Get`. -/
abbrev World := ResourceKey → Option LiveObj

/-- `Get` of a claim by namespaced name. -/
def getClaim (store : Store) (ns name : String) : Option StoreClaim :=
  store.find? (fun c => c.ns = ns ∧ c.name = name)

/-- `Delete` of a claim. -/
def removeClaim (store : Store) (ns name : String) : Store :=
  store.filter (fun c => ¬(c.ns = ns ∧ c.name = name))

/-- `Update` of a claim (optimistic CAS that succeeded). -/
def replaceClaim (store : Store) (ns name : String) (c' : StoreClaim) : Store :=
  store.map (fun c => if c.ns = ns ∧ c.name = name then c' else c)

/-- Resource deletion in the cluster. -/
def worldDelete (w : World) (k : ResourceKey) : World :=
  fun q => if q = k then none else w q

/-- Resource creation in the cluster. -/
def worldInsert (w : World) (k : ResourceKey) (obj : LiveObj) : World :=
  fun q => if q = k then some obj else w q

/-- `isPreProvisionedClaim` (controller): trimmed, case-folded comparison of
the pre-provisioned annotation with `"true"`. -/
def isPreProvisionedClaim (c : StoreClaim) : Bool :=
  trimFoldTrue c.preProvisionedAnn

/-- `isLazyProvisionedResource` (controller): same comparison on the
lazy-provisioning annotation of a rendered resource. -/
def isLazyProvisionedResource (t : ResourceTemplate) : Bool :=
  trimFoldTrue t.lazyAnn

/-- `templatesFromClaim` (controller): errors when the `renderedResources`
data is missing or undecodable, or decodes to an empty list. -/
def templatesFromClaim (c : StoreClaim) : Except Unit (List ResourceTemplate) :=
  match c.renderedResources with
  | none => .error ()
  | some [] => .error ()
  | some ts => .ok ts

/-! ## Reconciler: readiness evaluation, status write, expiry sweep -/

/-- The readiness record of a rendered resource that was not found
(`"not created yet"`). -/
def missingReadiness (ns : String) (t : ResourceTemplate) : ResourceReadiness :=
  { kind := t.kind, name := t.name, ns := (keyOf ns t).ns,
    ready := false, message := "not created yet" }

/-- The loop body of `evaluateClaimReadiness`: returns
`(allReady, readyCount, statuses)` over the rendered resources, skipping
lazy resources while the claim is pre-provisioned and counting missing
objects as not ready. -/
def evalResources (world : World) (ns : String) (pre : Bool) :
    List ResourceTemplate → Bool × Nat × List ResourceReadiness
  | [] => (true, 0, [])
  | t :: rest =>
    let tail := evalResources world ns pre rest
    if pre ∧ isLazyProvisionedResource t then tail
    else
      match world (keyOf ns t) with
      | none => (false, tail.2.1, missingReadiness ns t :: tail.2.2)
      | some obj =>
        let a := assessResourceReadiness t.kind obj
        (a.1 && tail.1, (if a.1 then 1 else 0) + tail.2.1,
          { kind := t.kind, name := t.name, ns := (keyOf ns t).ns,
            ready := a.1, message := a.2 } :: tail.2.2)

/-- `evaluateClaimReadiness` (controller): per-resource readiness records,
the `allReady` verdict and its summary line. -/
def evaluateClaimReadiness (world : World) (c : StoreClaim) :
    Except Unit (Bool × String × List ResourceReadiness) :=
  match templatesFromClaim c with
  | .error e => .error e
  | .ok resources =>
    let r := evalResources world c.ns (isPreProvisionedClaim c) resources
    let summary :=
      if r.1 then "all resources ready"
      else toString r.2.1 ++ "/" ++ toString resources.length ++ " resources ready"
    .ok (r.1, summary, r.2.2)

/-- The status value `updateClaimReadinessStatus` writes. -/
def statusValueFor (allReady : Bool) : String :=
  if allReady then "ready" else "pending"

/-- `updateClaimReadinessStatus` (controller): CAS write of the
status/message/resource-status triplet, skipped (second component `false`)
when the stored triplet already equals the new one; a vanished claim is
ignored. -/
def updateClaimReadinessStatus (store : Store) (ns name : String)
    (allReady : Bool) (summary : String) (resources : List ResourceReadiness) :
    Store × Bool :=
  match getClaim store ns name with
  | none => (store, false)
  | some current =>
    let statusValue := statusValueFor allReady
    if current.claimStatus = statusValue ∧ current.claimStatusMessage = summary ∧
        current.claimResourcesStatus = resources then
      (store, false)
    else
      (replaceClaim store ns name
        { current with
            claimStatus := statusValue
            claimStatusMessage := summary
            claimResourcesStatus := resources }, true)

/-- `cleanupClaimResources` (controller): delete every rendered resource of
the claim from the cluster (not-found deletes are already successes in the
model). -/
def cleanupClaimResources (world : World) (c : StoreClaim) : Except Unit World :=
  match templatesFromClaim c with
  | .error e => .error e
  | .ok ts => .ok (ts.foldl (fun w t => worldDelete w (keyOf c.ns t)) world)

/-- The loop of `cleanupExpiredClaims` over the listed managed claims:
delete resources and claim for every non-pre-provisioned claim whose
expires-at annotation parses and is not after `now`. -/
def sweepClaims (now : Int) : List StoreClaim → Store → World →
    Except Unit (Store × World)
  | [], store, world => .ok (store, world)
  | c :: rest, store, world =>
    if isPreProvisionedClaim c then sweepClaims now rest store world
    else
      match c.expiresAtAnn with
      | none => sweepClaims now rest store world
      | some e =>
        if now < e then sweepClaims now rest store world
        else
          match cleanupClaimResources world c with
          | .error err => .error err
          | .ok world' => sweepClaims now rest (removeClaim store c.ns c.name) world'

/-- `cleanupExpiredClaims` (controller): sweep over the managed claims of the
watched namespace. -/
def cleanupExpiredClaims (ns : String) (now : Int) (store : Store) (world : World) :
    Except Unit (Store × World) :=
  sweepClaims now (store.filter (fun c => c.ns = ns ∧ c.managed)) store world

/-- The live object a `Create` of a rendered resource materializes: the
template's spec with an empty status. -/
def createdObj (t : ResourceTemplate) : LiveObj :=
  { phase := "", conditions := none, specReplicas := t.specReplicas,
    readyReplicas := 0 }

/-- The loop of `ensureClaimResources`: create each rendered resource that is
absent, skipping lazy resources while pre-provisioned; present resources are
left untouched. -/
def ensureResources (world : World) (ns : String) (pre : Bool) :
    List ResourceTemplate → World
  | [] => world
  | t :: rest =>
    let world' :=
      if pre ∧ isLazyProvisionedResource t then world
      else
        match world (keyOf ns t) with
        | some _ => world
        | none => worldInsert world (keyOf ns t) (createdObj t)
    ensureResources world' ns pre rest

/-- `ensureClaimResources` (controller). -/
def ensureClaimResources (world : World) (c : StoreClaim) : Except Unit World :=
  match templatesFromClaim c with
  | .error e => .error e
  | .ok ts => .ok (ensureResources world c.ns (isPreProvisionedClaim c) ts)

/-- Configuration fields of `ClaimReconciler` that `Reconcile` reads. -/
structure ReconcileConfig where
  watchNamespace : String
  defaultTTL : Int
  reconcileInterval : Int
deriving Repr

/-- What one `Reconcile` call did: the store and cluster afterwards, whether
the readiness status was written, and the requeue delay (absent on the early
returns). -/
structure ReconcileOutcome where
  store : Store
  world : World
  statusWritten : Bool
  requeueAfter : Option Int

/-- `Reconcile` (controller), sequentially: the namespace gate, the global
expiry sweep, fetch, the managed gate, expiry parsing with its in-memory
default, the single-claim expiry check, ensure, readiness evaluation, status
write, and the requeue-delay computation.

The body calls `time.Now()` four times, at distinct instants of a
monotonically advancing clock, so each read is its own parameter:
`sweepNow` inside `cleanupExpiredClaims`, `defaultNow` when the in-memory
default expiry is computed for an unparseable annotation, `checkNow` in the
strict `After` comparison of the single-claim expiry check, and `untilNow`
in the `time.Until` of the requeue computation. They occur in program order:
`sweepNow ≤ defaultNow ≤ checkNow ≤ untilNow`. -/
def Reconcile (cfg : ReconcileConfig) (sweepNow defaultNow checkNow untilNow : Int)
    (store : Store) (world : World)
    (reqNs reqName : String) : Except Unit ReconcileOutcome :=
  if reqNs ≠ cfg.watchNamespace then .ok ⟨store, world, false, none⟩
  else
    match cleanupExpiredClaims cfg.watchNamespace sweepNow store world with
    | .error e => .error e
    | .ok (st1, w1) =>
      match getClaim st1 reqNs reqName with
      | none => .ok ⟨st1, w1, false, none⟩
      | some claim =>
        if ¬claim.managed then .ok ⟨st1, w1, false, none⟩
        else
          let pre := isPreProvisionedClaim claim
          let expiresAt := claim.expiresAtAnn.getD (defaultNow + cfg.defaultTTL)
          if ¬pre ∧ expiresAt < checkNow then
            match cleanupClaimResources w1 claim with
            | .error e => .error e
            | .ok w2 => .ok ⟨removeClaim st1 reqNs reqName, w2, false, none⟩
          else
            match ensureClaimResources w1 claim with
            | .error e => .error e
            | .ok w2 =>
              match evaluateClaimReadiness w2 claim with
              | .error e => .error e
              | .ok (allReady, summary, sts) =>
                let u := updateClaimReadinessStatus st1 reqNs reqName allReady summary sts
                .ok ⟨u.1, w2, u.2,
                  some (computeNextCheck cfg.reconcileInterval pre allReady
                    (expiresAt - untilNow))⟩

/-! ## HTTP API: readiness wait, renew, warm-pool allocation -/

/-- What one poll iteration of `waitForClaimReady` decides from the claim's
status data. -/
inductive WaitPoll where
  | ready : WaitPoll
  | failed (message : String) : WaitPoll
  | keepWaiting : WaitPoll
deriving DecidableEq, Repr

/-- The status classification inside `waitForClaimReady` (utils.go): `ready`
and `failed` are recognized after trimming, case-insensitively; a failed
claim surfaces its trimmed status message, with a fallback text when that is
empty. -/
def classifyClaimWaitStatus (statusData messageData : String) : WaitPoll :=
  let status := trimStr statusData
  if eqFold status "ready" then .ready
  else if eqFold status "failed" then
    .failed (if trimStr messageData = "" then "resource readiness failed" else trimStr messageData)
  else .keepWaiting

/-- The distinguished errors of `renewClaim`: the max-TTL policy violation
(`errMaxTTLReached`, mapped to 409) and a failing CAS re-fetch (surfaced as
500). -/
inductive RenewError where
  | maxTTLReached : RenewError
  | fetchFailed : RenewError
deriving DecidableEq, Repr

/-- `renewClaim` (utils.go): `claimedAt` is the claimed-at annotation when it
parses, else the creation timestamp; `maxExpiresAt = claimedAt + maxTTL`; at
or past that instant the renew is refused before any write, otherwise the
expires-at annotation is CAS-written to `min(now+ttl, maxExpiresAt)`. -/
def renewClaim (maxTTL now ttl : Int) (store : Store) (c : StoreClaim) :
    Except RenewError (Store × Int) :=
  let claimedAt := c.claimedAtAnn.getD c.creationTimestamp
  let maxExpiresAt := claimedAt + maxTTL
  if maxExpiresAt ≤ now then .error .maxTTLReached
  else
    let requested := now + ttl
    let newExpiresAt := if maxExpiresAt < requested then maxExpiresAt else requested
    match getClaim store c.ns c.name with
    | none => .error .fetchFailed
    | some current =>
      .ok (replaceClaim store c.ns c.name { current with expiresAtAnn := some newExpiresAt },
        newExpiresAt)

/-- The response `handleRenew` (server.go) produces from `renewClaim`:
status code, resulting store, and the expiry echoed on success. -/
def handleRenewResult (maxTTL now ttl : Int) (store : Store) (c : StoreClaim) :
    Nat × Store × Option Int :=
  match renewClaim maxTTL now ttl store c with
  | .error .maxTTLReached => (409, store, none)
  | .error .fetchFailed => (500, store, none)
  | .ok (st, e) => (200, st, some e)

/-- The CAS body of `acquirePreProvisionedClaim` (utils.go) for one
candidate, run against the freshly fetched claim: `none` is any outcome the
loop treats as a conflict (claim vanished, no longer pre-provisioned, or its
pool entry stale because `claimedAt + maxTTL ≤ now`); on success the claim
is handed out with `pre-provisioned=false`, `claimed-at=now` and
`expires-at=min(now+ttl, maxExpiresAt)`. -/
def tryAcquireClaim (maxTTL ttl now : Int) (store : Store) (ns name : String) :
    Option (Store × StoreClaim) :=
  match getClaim store ns name with
  | none => none
  | some current =>
    if ¬trimFoldTrue current.preProvisionedAnn then none
    else
      let claimedAt := current.claimedAtAnn.getD now
      let maxExpiresAt := claimedAt + maxTTL
      if maxExpiresAt ≤ now then none
      else
        let requested := now + ttl
        let expiresAt := if maxExpiresAt < requested then maxExpiresAt else requested
        let c' := { current with
            preProvisionedAnn := "false"
            claimedAtAnn := some now
            expiresAtAnn := some expiresAt }
        some (replaceClaim store ns name c', c')

/-- The candidate loop of `acquirePreProvisionedClaim`: skip candidates whose
snapshot is not pre-provisioned, try the CAS on the rest, and move to the
next candidate (store untouched) whenever it reports a conflict. -/
def acquireLoop (maxTTL ttl now : Int) (store : Store) :
    List StoreClaim → Option (Store × StoreClaim)
  | [] => none
  | cand :: rest =>
    if ¬trimFoldTrue cand.preProvisionedAnn then acquireLoop maxTTL ttl now store rest
    else
      match tryAcquireClaim maxTTL ttl now store cand.ns cand.name with
      | none => acquireLoop maxTTL ttl now store rest
      | some res => some res

/-- `acquirePreProvisionedClaim` (utils.go): disabled pools hand out nothing;
otherwise the managed claims of the namespace are listed and tried in
order. -/
def acquirePreProvisionedClaim (preProvisionCount : Int) (maxTTL ttl now : Int)
    (ns : String) (store : Store) : Option (Store × StoreClaim) :=
  if preProvisionCount ≤ 0 then none
  else acquireLoop maxTTL ttl now store (store.filter (fun c => c.ns = ns ∧ c.managed))

/-! ## Bridge definitions used by the theorems -/

/-- A rendered resource is live and passes the readiness predicate of its
kind (`false` for a not-found object, as the evaluation records
`"not created yet"`). -/
def liveResourceReady (world : World) (ns : String) (t : ResourceTemplate) : Bool :=
  match world (keyOf ns t) with
  | none => false
  | some obj => (assessResourceReadiness t.kind obj).1

/-- Every rendered resource the evaluation does not skip — all of them for a
handed-out claim, the non-lazy ones while the claim is pre-provisioned — is
live and ready. -/
def evaluatedResourcesReady (world : World) (c : StoreClaim) : Bool :=
  match templatesFromClaim c with
  | .ok ts =>
    ts.all (fun t =>
      (isPreProvisionedClaim c && isLazyProvisionedResource t) ||
        liveResourceReady world c.ns t)
  | .error _ => false

/-- Every non-lazy rendered resource is live and ready — the predicate the
frozen claim about `claimStatus` uses, with no pre-provisioned guard on the
lazy rule. -/
def nonLazyResourcesReady (world : World) (c : StoreClaim) : Bool :=
  match templatesFromClaim c with
  | .ok ts =>
    ts.all (fun t => isLazyProvisionedResource t || liveResourceReady world c.ns t)
  | .error _ => false

/-- Steps 8–9 of `Reconcile` for an already-swept store: fetch the claim,
evaluate readiness, and perform the conditional status write. -/
def reconcileStatusPass (world : World) (store : Store) (ns name : String) :
    Except Unit (Store × Bool) :=
  match getClaim store ns name with
  | none => .ok (store, false)
  | some c =>
    match evaluateClaimReadiness world c with
    | .error e => .error e
    | .ok (a, s, r) => .ok (updateClaimReadinessStatus store ns name a s r)

/-! ## Concrete fixtures for witnesses and counterexamples -/

/-- A plain rendered Pod resource, not lazy. -/
def samplePodTemplate : ResourceTemplate :=
  { apiVersion := "v1", kind := "Pod", name := "workload-pod", namespaced := true,
    lazyAnn := "", specReplicas := 0 }

/-- A rendered resource carrying the lazy-provisioning annotation. -/
def sampleLazyTemplate : ResourceTemplate :=
  { apiVersion := "v1", kind := "Service", name := "lazy-endpoint", namespaced := true,
    lazyAnn := "true", specReplicas := 0 }

/-- A running, ready Pod as fetched live. -/
def samplePodObj : LiveObj :=
  { phase := "Running", conditions := some [{ condType := "Ready", condStatus := "True" }],
    specReplicas := 0, readyReplicas := 0 }

/-- A stored claim that has been handed out (not pre-provisioned). -/
def sampleClaim : StoreClaim :=
  { name := "claim-abcd1234", ns := "default", managed := true,
    preProvisionedAnn := "false", expiresAtAnn := some (3600 * second),
    claimedAtAnn := some 0, creationTimestamp := 0,
    renderedResources := some [samplePodTemplate],
    claimStatus := "pending",
    claimStatusMessage := "waiting for resources to be created",
    claimResourcesStatus := [] }

/-- A warm-pool claim awaiting hand-out. -/
def samplePoolClaim : StoreClaim :=
  { sampleClaim with
      name := "claim-pool0001"
      preProvisionedAnn := "true"
      claimedAtAnn := none
      expiresAtAnn := some (600 * second) }

/-- A cluster in which `sampleClaim`'s Pod is live and ready. -/
def sampleWorld : World :=
  fun k => if k = keyOf "default" samplePodTemplate then some samplePodObj else none

/-- A handed-out claim whose only rendered resource is lazy: the evaluation
still includes it, while the frozen claim's non-lazy reading would skip
it. -/
def lazyOnlyClaim : StoreClaim :=
  { sampleClaim with
      name := "claim-lazyonly"
      renderedResources := some [sampleLazyTemplate] }

/-- A stock reconciler configuration: 10-minute default TTL, 30-second
reconcile interval. -/
def standardConfig : ReconcileConfig :=
  { watchNamespace := "default"
    defaultTTL := 600 * second
    reconcileInterval := 30 * second }

/-- `sampleClaim` after the reconciler wrote an all-ready status. -/
def sampleReadyClaim : StoreClaim :=
  { sampleClaim with
      claimStatus := "ready"
      claimStatusMessage := "all resources ready"
      claimResourcesStatus := [] }

/-- The record `renewClaim` CAS-writes on success (`claimedAt` is the
annotation-or-creation fallback already resolved). -/
def renewedClaim (maxTTL now ttl claimedAt : Int) (current : StoreClaim) : StoreClaim :=
  { current with expiresAtAnn := some (min (now + ttl) (claimedAt + maxTTL)) }

/-- The record the warm-pool CAS writes on a successful hand-out. -/
def handedOutClaim (maxTTL ttl now : Int) (current : StoreClaim) : StoreClaim :=
  { current with
      preProvisionedAnn := "false"
      claimedAtAnn := some now
      expiresAtAnn := some (min (now + ttl) (current.claimedAtAnn.getD now + maxTTL)) }

/-- `sampleClaim` after the reconciler evaluated it against `sampleWorld`
and wrote the resulting all-ready status. -/
def sampleEvaluatedClaim : StoreClaim :=
  { sampleClaim with
      claimStatus := "ready"
      claimStatusMessage := "all resources ready"
      claimResourcesStatus :=
        [{ kind := "Pod", name := "workload-pod", ns := "default", ready := true,
           message := "pod ready" }] }

/-! # Theorems -/

/-! ## C9: `parseKeyValuePairs` and return-value merging -/

theorem lookupPair_nil (q : String) : lookupPair [] q = none := rfl

theorem lookupPair_cons (p : String × String) (rest : RetMap) (q : String) :
    lookupPair (p :: rest) q = if p.1 = q then some p.2 else lookupPair rest q := by
  simp only [lookupPair, List.find?]
  rcases eq_or_ne p.1 q with h | h
  · simp [h]
  · simp [h]

theorem lookupPair_upsertPair (m : RetMap) (k v q : String) :
    lookupPair (upsertPair m k v) q = if q = k then some v else lookupPair m q := by
  induction m with
  | nil =>
    simp only [upsertPair, lookupPair_cons, lookupPair_nil]
    rcases eq_or_ne q k with h | h
    · simp [h]
    · simp [h, Ne.symm h]
  | cons p rest ih =>
    simp only [upsertPair]
    rcases eq_or_ne p.1 k with hpk | hpk
    · simp only [if_pos hpk, lookupPair_cons]
      rcases eq_or_ne q k with h | h
      · simp [h]
      · simp [Ne.symm h, h, hpk]
    · simp only [if_neg hpk, lookupPair_cons, ih]
      rcases eq_or_ne p.1 q with hpq | hpq
      · have hqk : q ≠ k := fun hh => hpk (hpq.trans hh)
        simp [hpq, hqk]
      · simp [hpq]

theorem lookupPair_foldl_upsert (l : List (String × String)) (t : RetMap) (q : String) :
    lookupPair (l.foldl (fun acc p => upsertPair acc p.1 p.2) t) q =
      match lookupLastPair l q with
      | some v => some v
      | none => lookupPair t q := by
  induction l generalizing t with
  | nil => simp [lookupLastPair]
  | cons p rest ih =>
    simp only [List.foldl_cons, lookupLastPair]
    rw [ih]
    rcases hrest : lookupLastPair rest q with _ | v
    · simp only [lookupPair_upsertPair]
      rcases eq_or_ne q p.1 with h | h
      · simp [h]
      · simp [h, Ne.symm h]
    · rfl

theorem mem_keys_upsertPair (m : RetMap) (k v q : String) :
    q ∈ (upsertPair m k v).map Prod.fst ↔ q = k ∨ q ∈ m.map Prod.fst := by
  induction m with
  | nil => simp [upsertPair]
  | cons p rest ih =>
    rcases eq_or_ne p.1 k with hpk | hpk
    · rw [show upsertPair (p :: rest) k v = (k, v) :: rest from by
        simp only [upsertPair, if_pos hpk]]
      simp only [List.map_cons, List.mem_cons, hpk]
      tauto
    · rw [show upsertPair (p :: rest) k v = p :: upsertPair rest k v from by
        simp only [upsertPair, if_neg hpk]]
      simp only [List.map_cons, List.mem_cons, ih]
      tauto

theorem keysNodup_upsertPair (m : RetMap) (k v : String) (h : keysNodup m) :
    keysNodup (upsertPair m k v) := by
  induction m with
  | nil => simp [upsertPair, keysNodup]
  | cons p rest ih =>
    simp only [keysNodup, List.map_cons, List.nodup_cons] at h
    rcases eq_or_ne p.1 k with hpk | hpk
    · simp only [upsertPair, if_pos hpk, keysNodup, List.map_cons, List.nodup_cons]
      exact ⟨hpk ▸ h.1, h.2⟩
    · simp only [upsertPair, if_neg hpk, keysNodup, List.map_cons, List.nodup_cons]
      refine ⟨?_, ih h.2⟩
      intro hmem
      rcases (mem_keys_upsertPair rest k v p.1).mp hmem with h1 | h1
      · exact hpk h1
      · exact h.1 h1

theorem keysNodup_parseKVToken (out : RetMap) (tok : List Char) (h : keysNodup out) :
    keysNodup (parseKVToken out tok) := by
  simp only [parseKVToken]
  split
  · exact h
  · split
    · exact h
    · split
      · exact h
      · exact keysNodup_upsertPair _ _ _ h

theorem keysNodup_parseKeyValuePairs (s : String) :
    keysNodup (parseKeyValuePairs s) := by
  simp only [parseKeyValuePairs]
  generalize splitOnChar ',' (s.data.map (fun c => if c = '\n' ∨ c = ';' then ',' else c)) = tokens
  have aux : ∀ (ts : List (List Char)) (acc : RetMap), keysNodup acc →
      keysNodup (ts.foldl parseKVToken acc) := by
    intro ts
    induction ts with
    | nil => intro acc h; exact h
    | cons tok rest ih => intro acc h; exact ih _ (keysNodup_parseKVToken acc tok h)
  exact aux tokens [] (by simp [keysNodup])

theorem lookupLastPair_none_of_not_mem (m : RetMap) (q : String)
    (h : q ∉ m.map Prod.fst) : lookupLastPair m q = none := by
  induction m with
  | nil => rfl
  | cons p rest ih =>
    simp only [List.map_cons, List.mem_cons, not_or] at h
    simp only [lookupLastPair, ih h.2]
    simp [Ne.symm h.1]

theorem lookupLastPair_eq_lookupPair (m : RetMap) (q : String) (h : keysNodup m) :
    lookupLastPair m q = lookupPair m q := by
  induction m with
  | nil => rfl
  | cons p rest ih =>
    simp only [keysNodup, List.map_cons, List.nodup_cons] at h
    simp only [lookupLastPair, lookupPair_cons]
    rcases eq_or_ne p.1 q with hpq | hpq
    · rw [lookupLastPair_none_of_not_mem rest q (hpq ▸ h.1)]
      simp [hpq]
    · rw [ih h.2]
      rcases hrest : lookupPair rest q with _ | v
      · simp [hpq]
      · simp [hpq]

/-- C9: `parseKeyValuePairs` normalizes newlines and semicolons to commas,
splits on commas, trims tokens, drops empty tokens, tokens without `=` and
tokens with an empty key, and maps each remaining trimmed key to its trimmed
value; on the spec's example it yields exactly a↦1, b↦2, c↦3, d↦4, and when
several directives contribute the same key during return-value harvesting
the later directive's binding wins. -/
theorem claimC9_parseKeyValuePairs :
    parseKeyValuePairs "a=1,b=2; c=3\nd=4" =
      [("a", "1"), ("b", "2"), ("c", "3"), ("d", "4")] ∧
    parseKeyValuePairs " ,a=1,, stray , =skipped, b = 2 ," = [("a", "1"), ("b", "2")] ∧
    ∀ (target : RetMap) (directive k v : String),
      lookupPair (parseKeyValuePairs directive) k = some v →
      lookupPair (mergeReturnValues target directive) k = some v := by
  refine ⟨by decide, by decide, ?_⟩
  intro target directive k v h
  unfold mergeReturnValues
  rw [lookupPair_foldl_upsert]
  rw [lookupLastPair_eq_lookupPair _ _ (keysNodup_parseKeyValuePairs directive)]
  simp [h]

/-- Witness for C9: merging the directive `a=2` over a map already binding
`a` rebinds `a` to the later value. -/
theorem claimC9_parseKeyValuePairs_witness :
    lookupPair (mergeReturnValues [("a", "1")] "a=2") "a" = some "2" :=
  claimC9_parseKeyValuePairs.2.2 [("a", "1")] "a=2" "a" "2" (by decide)

/-! ## C7: effective TTL of a claim request -/

/-- C7: the effective TTL of a `POST /claim` request is `defaultTTL` when
the body or its `ttl` field is absent or empty; an unparseable duration or a
non-positive parse is rejected with 400; a parse above `maxTTL` is clamped
to `maxTTL`; any other parse is used as is. -/
theorem claimC7_ttl_selection (pd : String → Option Int) (dTTL mTTL : Int) :
    ttlFromRequest pd dTTL mTTL .noBody = .ok dTTL ∧
    ttlFromRequest pd dTTL mTTL .emptyBody = .ok dTTL ∧
    (∀ s, trimStr s = "" → ttlFromRequest pd dTTL mTTL (.decoded s) = .ok dTTL) ∧
    ttlRequestStatus pd dTTL mTTL .badJSON = Sum.inl 400 ∧
    (∀ s, trimStr s ≠ "" → pd (trimStr s) = none →
      ttlRequestStatus pd dTTL mTTL (.decoded s) = Sum.inl 400) ∧
    (∀ s v, trimStr s ≠ "" → pd (trimStr s) = some v → v ≤ 0 →
      ttlRequestStatus pd dTTL mTTL (.decoded s) = Sum.inl 400) ∧
    (∀ s v, trimStr s ≠ "" → pd (trimStr s) = some v → 0 < v → mTTL < v →
      ttlFromRequest pd dTTL mTTL (.decoded s) = .ok mTTL) ∧
    (∀ s v, trimStr s ≠ "" → pd (trimStr s) = some v → 0 < v → v ≤ mTTL →
      ttlFromRequest pd dTTL mTTL (.decoded s) = .ok v) := by
  refine ⟨rfl, rfl, ?_, rfl, ?_, ?_, ?_, ?_⟩
  · intro s hs
    simp [ttlFromRequest, hs]
  · intro s hs hpd
    simp [ttlRequestStatus, ttlFromRequest, hs, hpd]
  · intro s v hs hpd hv
    simp [ttlRequestStatus, ttlFromRequest, hs, hpd, hv]
  · intro s v hs hpd hv hmax
    simp [ttlFromRequest, hs, hpd, not_le.mpr hv, hmax]
  · intro s v hs hpd hv hmax
    simp [ttlFromRequest, hs, hpd, not_le.mpr hv, not_lt.mpr hmax]

/-- Witness for C7: a request asking for 10 minutes under a 5-minute cap is
clamped to the cap. -/
theorem claimC7_ttl_selection_witness :
    ttlFromRequest (fun _ => some (600 * second)) (60 * second) (300 * second)
      (.decoded "10m") = .ok (300 * second) :=
  (claimC7_ttl_selection (fun _ => some (600 * second)) (60 * second)
    (300 * second)).2.2.2.2.2.2.1 "10m" (600 * second) (by decide) rfl
    (by decide) (by decide)

/-! ## C3: the reconciler requeue delay -/

/-- C3 as frozen is false: for a pre-provisioned claim the reconcile
interval is NOT used directly as the requeue delay — the clamps still apply.
With a 30s interval, a pre-provisioned claim whose resources are not all
ready is requeued after 3s, and `Reconcile` returns exactly that delay. -/
theorem claimC3_nextCheck_counterexample :
    computeNextCheck (30 * second) true false 0 = 3 * second ∧
    (Reconcile standardConfig 0 1 2 3 [samplePoolClaim] (fun _ => none)
      "default" "claim-pool0001").map (fun o => o.requeueAfter) =
        .ok (some (3 * second)) ∧
    (3 : Int) * second ≠ 30 * second := by
  refine ⟨by decide, by rfl, by decide⟩

/-- C3 amended: the requeue delay starts from time-until-expiry, with the
reconcile interval substituted as the starting value when the claim is
pre-provisioned, and is then clamped to at least 5s, to at most 3s when not
all resources are ready, and finally to at most a positive reconcile
interval. -/
theorem claimC3_nextCheck_clamps (reconcileInterval untilExpiry : Int)
    (isPre allReady : Bool) :
    computeNextCheck reconcileInterval isPre allReady untilExpiry =
      specNextCheck reconcileInterval isPre allReady untilExpiry := by
  cases isPre <;> cases allReady <;>
    simp [computeNextCheck, specNextCheck, second, min_def, max_def] <;>
    split_ifs <;> omega

/-! ## Store lemmas shared by several theorems -/

theorem getClaim_replaceClaim (store : Store) (ns name : String) (c' : StoreClaim)
    (hns : c'.ns = ns) (hname : c'.name = name) :
    getClaim (replaceClaim store ns name c') ns name =
      (getClaim store ns name).map (fun _ => c') := by
  induction store with
  | nil => rfl
  | cons c rest ih =>
    by_cases hc : c.ns = ns ∧ c.name = name
    · simp [replaceClaim, getClaim, List.find?, hc, hns, hname]
    · simp only [replaceClaim, List.map_cons, if_neg hc]
      have h1 : getClaim (c :: replaceClaim rest ns name c') ns name =
          getClaim (replaceClaim rest ns name c') ns name := by
        simp [getClaim, List.find?, hc]
      have h2 : getClaim (c :: rest) ns name = getClaim rest ns name := by
        simp [getClaim, List.find?, hc]
      rw [show replaceClaim rest ns name c' =
          rest.map (fun x => if x.ns = ns ∧ x.name = name then c' else x) from rfl] at h1
      rw [h1, h2, ← ih]
      rfl

/-- A fetched claim matches the key it was fetched under. -/
theorem getClaim_key (store : Store) (ns name : String) (c : StoreClaim)
    (h : getClaim store ns name = some c) : c.ns = ns ∧ c.name = name := by
  have := List.find?_some h
  simpa using this

/-- Whatever `updateClaimReadinessStatus` leaves under the claim's key
carries exactly the status value computed from `allReady`. -/
theorem claimStatus_after_update (store : Store) (ns name : String)
    (allReady : Bool) (summary : String) (resources : List ResourceReadiness)
    (c' : StoreClaim)
    (h : getClaim (updateClaimReadinessStatus store ns name allReady summary resources).1
        ns name = some c') :
    c'.claimStatus = statusValueFor allReady := by
  unfold updateClaimReadinessStatus at h
  rcases hget : getClaim store ns name with _ | current
  · rw [hget] at h
    simp only at h
    rw [hget] at h
    exact absurd h (by simp)
  · rw [hget] at h
    simp only at h
    by_cases heq : current.claimStatus = statusValueFor allReady ∧
        current.claimStatusMessage = summary ∧ current.claimResourcesStatus = resources
    · rw [if_pos heq] at h
      rw [hget] at h
      cases h
      exact heq.1
    · rw [if_neg heq] at h
      have hkey := getClaim_key store ns name current hget
      rw [getClaim_replaceClaim store ns name
        { current with
            claimStatus := statusValueFor allReady
            claimStatusMessage := summary
            claimResourcesStatus := resources }
        (show current.ns = ns from hkey.1)
        (show current.name = name from hkey.2), hget] at h
      cases h
      rfl

/-! ## C10: the reconciler never writes a failed status -/

/-- C10: whatever `updateClaimReadinessStatus` leaves under the claim's key
has `claimStatus` equal to `"pending"` or `"ready"`, never `"failed"`; hence
`waitForClaimReady` can never take its failed branch (the 500 path) on a
status the reconciler wrote. -/
theorem claimC10_no_failed_status (store : Store) (ns name : String)
    (allReady : Bool) (summary : String) (resources : List ResourceReadiness)
    (c' : StoreClaim)
    (h : getClaim (updateClaimReadinessStatus store ns name allReady summary resources).1
        ns name = some c') :
    (c'.claimStatus = "pending" ∨ c'.claimStatus = "ready") ∧
    ∀ messageData m,
      classifyClaimWaitStatus c'.claimStatus messageData ≠ WaitPoll.failed m := by
  have hs := claimStatus_after_update store ns name allReady summary resources c' h
  cases allReady with
  | false =>
    refine ⟨Or.inl hs, ?_⟩
    intro messageData m hcon
    rw [hs] at hcon
    exact WaitPoll.noConfusion hcon
  | true =>
    refine ⟨Or.inr hs, ?_⟩
    intro messageData m hcon
    rw [hs] at hcon
    exact WaitPoll.noConfusion hcon

/-- Witness for C10: an all-ready write on the sample claim yields status
`"ready"`, which the readiness wait does not classify as failed. -/
theorem claimC10_no_failed_status_witness :
    classifyClaimWaitStatus sampleReadyClaim.claimStatus "" ≠ WaitPoll.failed "boom" :=
  (claimC10_no_failed_status [sampleClaim] "default" "claim-abcd1234" true
    "all resources ready" [] sampleReadyClaim (by decide)).2 "" "boom"

/-! ## C2: renew honors the max-TTL cap -/

/-- C2: renewing with a TTL computes `claimedAt` from the claimed-at
annotation (falling back to the creation timestamp) and
`maxExpiresAt = claimedAt + maxTTL`; when `maxExpiresAt ≤ now` the handler
responds 409 and the stored expires-at is untouched, otherwise it responds
200 and the claim's expires-at becomes `min(now + ttl, maxExpiresAt)`. -/
theorem claimC2_renew_max_ttl (maxTTL now ttl : Int) (store : Store) (c : StoreClaim) :
    (c.claimedAtAnn.getD c.creationTimestamp + maxTTL ≤ now →
      handleRenewResult maxTTL now ttl store c = (409, store, none)) ∧
    (now < c.claimedAtAnn.getD c.creationTimestamp + maxTTL →
      ∀ current, getClaim store c.ns c.name = some current →
        ∃ st', handleRenewResult maxTTL now ttl store c =
            (200, st', some (min (now + ttl)
              (c.claimedAtAnn.getD c.creationTimestamp + maxTTL))) ∧
          getClaim st' c.ns c.name = some (renewedClaim maxTTL now ttl
            (c.claimedAtAnn.getD c.creationTimestamp) current)) := by
  constructor
  · intro h
    simp [handleRenewResult, renewClaim, h]
  · intro h current hcur
    have hkey := getClaim_key store c.ns c.name current hcur
    have hmin : (if c.claimedAtAnn.getD c.creationTimestamp + maxTTL < now + ttl
        then c.claimedAtAnn.getD c.creationTimestamp + maxTTL else now + ttl) =
        min (now + ttl) (c.claimedAtAnn.getD c.creationTimestamp + maxTTL) := by
      rw [min_def]
      split_ifs <;> omega
    refine ⟨replaceClaim store c.ns c.name (renewedClaim maxTTL now ttl
      (c.claimedAtAnn.getD c.creationTimestamp) current), ?_, ?_⟩
    · simp only [handleRenewResult, renewClaim, if_neg (not_le.mpr h), hcur, hmin,
        renewedClaim]
    · rw [getClaim_replaceClaim store c.ns c.name
        (renewedClaim maxTTL now ttl (c.claimedAtAnn.getD c.creationTimestamp) current)
        (show current.ns = c.ns from hkey.1)
        (show current.name = c.name from hkey.2), hcur]
      rfl

/-- Witness for C2: renewing the sample claim (claimed at 0, max TTL 600s)
at t = 60s with a 120s TTL succeeds and stores expiry 180s. -/
theorem claimC2_renew_max_ttl_witness :
    ∃ st', handleRenewResult (600 * second) (60 * second) (120 * second)
        [sampleClaim] sampleClaim =
        (200, st', some (min (60 * second + 120 * second)
          (sampleClaim.claimedAtAnn.getD sampleClaim.creationTimestamp + 600 * second))) ∧
      getClaim st' sampleClaim.ns sampleClaim.name = some (renewedClaim (600 * second)
        (60 * second) (120 * second)
        (sampleClaim.claimedAtAnn.getD sampleClaim.creationTimestamp) sampleClaim) :=
  (claimC2_renew_max_ttl (600 * second) (60 * second) (120 * second)
    [sampleClaim] sampleClaim).2 (by decide) sampleClaim (by decide)

/-! ## C1: warm-pool hand-out -/

/-- C1: a warm-pool hand-out attempt on a candidate whose pre-provisioned
annotation reads true computes `claimedAt` from the claimed-at annotation
(else `now`) and `maxExpiresAt = claimedAt + maxTTL`; a stale candidate
(`maxExpiresAt ≤ now`) is treated as a conflict — no mutation, the loop
moves to the next candidate — while otherwise the CAS update flips
pre-provisioned to `"false"`, stamps `claimed-at = now` and sets
`expires-at = min(now + ttl, maxExpiresAt)`. -/
theorem claimC1_warm_handout (maxTTL ttl now : Int) (store : Store)
    (current : StoreClaim)
    (hget : getClaim store current.ns current.name = some current)
    (hpre : trimFoldTrue current.preProvisionedAnn = true) :
    (current.claimedAtAnn.getD now + maxTTL ≤ now →
      tryAcquireClaim maxTTL ttl now store current.ns current.name = none ∧
      ∀ rest, acquireLoop maxTTL ttl now store (current :: rest) =
        acquireLoop maxTTL ttl now store rest) ∧
    (now < current.claimedAtAnn.getD now + maxTTL →
      ∃ st', tryAcquireClaim maxTTL ttl now store current.ns current.name =
          some (st', handedOutClaim maxTTL ttl now current) ∧
        getClaim st' current.ns current.name =
          some (handedOutClaim maxTTL ttl now current)) := by
  constructor
  · intro h
    have htry : tryAcquireClaim maxTTL ttl now store current.ns current.name = none := by
      simp [tryAcquireClaim, hget, hpre, h]
    refine ⟨htry, ?_⟩
    intro rest
    simp [acquireLoop, hpre, htry]
  · intro h
    have hmin : (if current.claimedAtAnn.getD now + maxTTL < now + ttl
        then current.claimedAtAnn.getD now + maxTTL else now + ttl) =
        min (now + ttl) (current.claimedAtAnn.getD now + maxTTL) := by
      rw [min_def]
      split_ifs <;> omega
    refine ⟨replaceClaim store current.ns current.name
      (handedOutClaim maxTTL ttl now current), ?_, ?_⟩
    · simp only [tryAcquireClaim, hget, hpre, Bool.not_true, if_neg (not_le.mpr h), hmin,
        handedOutClaim]
      simp
    · rw [getClaim_replaceClaim store current.ns current.name
        (handedOutClaim maxTTL ttl now current) rfl rfl, hget]
      rfl

/-- Witness for C1: handing out the sample warm-pool claim at t = 0 with a
60s TTL flips it to claimed with expiry 60s. -/
theorem claimC1_warm_handout_witness :
    ∃ st', tryAcquireClaim (600 * second) (60 * second) 0 [samplePoolClaim]
        samplePoolClaim.ns samplePoolClaim.name =
        some (st', handedOutClaim (600 * second) (60 * second) 0 samplePoolClaim) ∧
      getClaim st' samplePoolClaim.ns samplePoolClaim.name =
        some (handedOutClaim (600 * second) (60 * second) 0 samplePoolClaim) :=
  (claimC1_warm_handout (600 * second) (60 * second) 0 [samplePoolClaim]
    samplePoolClaim (by decide) (by decide)).2 (by decide)

/-! ## C4: readiness classification of live objects -/

/-- With at most one condition of the given type in the whole list, a
matching head leaves no match in the tail. -/
theorem no_match_in_tail (c : Cond) (rest : List Cond) (t : String)
    (hc : eqFold c.condType t = true)
    (h : ((c :: rest).filter (fun x => eqFold x.condType t)).length ≤ 1) :
    ∀ x ∈ rest, ¬(eqFold x.condType t = true) := by
  simp [List.filter_cons, hc] at h
  intro x hx hxt
  rw [h x hx] at hxt
  cases hxt

theorem conditionScan_not_found_iff (cs : List Cond) (t : String) :
    (conditionScan cs t).2 = false ↔ ∀ c ∈ cs, eqFold c.condType t = false := by
  induction cs with
  | nil => simp [conditionScan]
  | cons c rest ih =>
    by_cases hc : eqFold c.condType t = true
    · simp only [conditionScan, if_pos hc]
      rcases parseBoolLower (toLowerStr c.condStatus) with _ | b <;>
        simp [hc]
    · have hc' : eqFold c.condType t = false := by
        cases hcc : eqFold c.condType t
        · rfl
        · exact absurd hcc hc
      simp only [conditionScan, if_neg hc, ih]
      simp [hc']

theorem conditionScan_true_iff (cs : List Cond) (t : String)
    (h : (cs.filter (fun c => eqFold c.condType t)).length ≤ 1) :
    ((conditionScan cs t).1 = true ∧ (conditionScan cs t).2 = true) ↔
      ∃ c ∈ cs, eqFold c.condType t = true ∧
        parseBoolLower (toLowerStr c.condStatus) = some true := by
  induction cs with
  | nil => simp [conditionScan]
  | cons c rest ih =>
    by_cases hc : eqFold c.condType t = true
    · have hrest := no_match_in_tail c rest t hc h
      simp only [conditionScan, if_pos hc]
      rcases hparse : parseBoolLower (toLowerStr c.condStatus) with _ | b
      · constructor
        · rintro ⟨h1, -⟩
          cases h1
        · rintro ⟨x, hx, hxt, hxp⟩
          rcases List.mem_cons.mp hx with rfl | hx'
          · rw [hparse] at hxp
            cases hxp
          · exact absurd hxt (hrest x hx')
      · constructor
        · rintro ⟨h1, -⟩
          exact ⟨c, by simp, hc, by rw [hparse]; cases h1; rfl⟩
        · rintro ⟨x, hx, hxt, hxp⟩
          rcases List.mem_cons.mp hx with rfl | hx'
          · rw [hparse] at hxp
            cases hxp
            exact ⟨rfl, rfl⟩
          · exact absurd hxt (hrest x hx')
    · have hfilter : ((c :: rest).filter (fun x => eqFold x.condType t)).length =
          (rest.filter (fun x => eqFold x.condType t)).length := by
        simp only [List.filter_cons]
        rw [if_neg hc]
      simp only [conditionScan, if_neg hc]
      rw [ih (hfilter ▸ h)]
      constructor
      · rintro ⟨x, hx, hprops⟩
        exact ⟨x, List.mem_cons_of_mem c hx, hprops⟩
      · rintro ⟨x, hx, hprops⟩
        rcases List.mem_cons.mp hx with rfl | hx'
        · exact absurd hprops.1 hc
        · exact ⟨x, hx', hprops⟩

theorem conditionScan_all_iff (cs : List Cond) (t : String)
    (h : (cs.filter (fun c => eqFold c.condType t)).length ≤ 1) :
    ((conditionScan cs t).2 = false ∨ (conditionScan cs t).1 = true) ↔
      ∀ c ∈ cs, eqFold c.condType t = true →
        parseBoolLower (toLowerStr c.condStatus) = some true := by
  induction cs with
  | nil => simp [conditionScan]
  | cons c rest ih =>
    by_cases hc : eqFold c.condType t = true
    · have hrest := no_match_in_tail c rest t hc h
      simp only [conditionScan, if_pos hc]
      rcases hparse : parseBoolLower (toLowerStr c.condStatus) with _ | b
      · constructor
        · rintro (h1 | h1) <;> cases h1
        · intro hall
          have := hall c (by simp) hc
          rw [hparse] at this
          cases this
      · constructor
        · rintro (h1 | h1)
          · cases h1
          · intro x hx hxt
            rcases List.mem_cons.mp hx with rfl | hx'
            · rw [hparse]
              cases h1
              rfl
            · exact absurd hxt (hrest x hx')
        · intro hall
          have := hall c (by simp) hc
          rw [hparse] at this
          cases this
          exact Or.inr rfl
    · have hfilter : ((c :: rest).filter (fun x => eqFold x.condType t)).length =
          (rest.filter (fun x => eqFold x.condType t)).length := by
        simp only [List.filter_cons]
        rw [if_neg hc]
      simp only [conditionScan, if_neg hc]
      rw [ih (hfilter ▸ h)]
      constructor
      · intro hall x hx hxt
        rcases List.mem_cons.mp hx with rfl | hx'
        · exact absurd hxt hc
        · exact hall x hx' hxt
      · intro hall x hx hxt
        exact hall x (List.mem_cons_of_mem c hx) hxt

theorem conditionStatus_true_iff (conds : Option (List Cond)) (t : String)
    (h : matchingConditions conds t ≤ 1) :
    ((conditionStatus conds t).1 = true ∧ (conditionStatus conds t).2 = true) ↔
      hasTrueCondition conds t := by
  rcases conds with _ | cs
  · simp [conditionStatus, hasTrueCondition]
  · exact conditionScan_true_iff cs t h

theorem conditionStatus_all_iff (conds : Option (List Cond)) (t : String)
    (h : matchingConditions conds t ≤ 1) :
    ((conditionStatus conds t).2 = false ∨ (conditionStatus conds t).1 = true) ↔
      ∀ c ∈ conds.getD [], eqFold c.condType t = true →
        parseBoolLower (toLowerStr c.condStatus) = some true := by
  rcases conds with _ | cs
  · simp [conditionStatus]
  · exact conditionScan_all_iff cs t h

theorem assess_pod_eq (kind : String) (obj : LiveObj) (hk : toLowerStr kind = "pod") :
    assessResourceReadiness kind obj =
      if obj.phase = "Succeeded" then (true, "pod succeeded")
      else if obj.phase = "Failed" then (false, "pod failed")
      else if obj.phase = "Running" ∧ (conditionStatus obj.conditions "Ready").2 ∧
          (conditionStatus obj.conditions "Ready").1 then (true, "pod ready")
      else (false, "pod phase=" ++ obj.phase) := by
  simp [assessResourceReadiness, hk]

theorem assess_deployment_eq (kind : String) (obj : LiveObj)
    (hk : toLowerStr kind = "deployment") :
    assessResourceReadiness kind obj =
      if (if obj.specReplicas = 0 then 1 else obj.specReplicas) ≤ obj.readyReplicas ∧
          (¬(conditionStatus obj.conditions "Available").2 ∨
            (conditionStatus obj.conditions "Available").1) then
        (true, "deployment ready (" ++ toString obj.readyReplicas ++ "/" ++
          toString (if obj.specReplicas = 0 then 1 else obj.specReplicas) ++ ")")
      else
        (false, "deployment not ready (" ++ toString obj.readyReplicas ++ "/" ++
          toString (if obj.specReplicas = 0 then 1 else obj.specReplicas) ++ ")") := by
  have hnp : toLowerStr kind ≠ "pod" := by
    rw [hk]
    decide
  simp [assessResourceReadiness, hk, hnp]

/-- C4: the live-object readiness classification. A Pod is ready exactly
when its phase is Running with a true Ready condition, or its phase is
Succeeded; a Failed phase is never ready, and any other not-ready phase is
reported as `pod phase=<phase>`. A Deployment is ready exactly when
`status.readyReplicas` reaches `spec.replicas` (defaulting to 1 when unset
or zero) and any present Available condition is true. Every other kind is
ready because the object exists. The hypotheses state the Kubernetes
well-formedness invariant that a conditions list holds at most one entry
per type. -/
theorem claimC4_readiness_classification (kind : String) (obj : LiveObj)
    (hReady : matchingConditions obj.conditions "Ready" ≤ 1)
    (hAvail : matchingConditions obj.conditions "Available" ≤ 1) :
    (toLowerStr kind = "pod" →
      ((assessResourceReadiness kind obj).1 = true ↔ podReadySpec obj) ∧
      (obj.phase = "Failed" → (assessResourceReadiness kind obj).1 = false) ∧
      ((assessResourceReadiness kind obj).1 = false → obj.phase ≠ "Succeeded" →
        obj.phase ≠ "Failed" →
        (assessResourceReadiness kind obj).2 = "pod phase=" ++ obj.phase)) ∧
    (toLowerStr kind = "deployment" →
      ((assessResourceReadiness kind obj).1 = true ↔ deploymentReadySpec obj)) ∧
    (toLowerStr kind ≠ "pod" → toLowerStr kind ≠ "deployment" →
      (assessResourceReadiness kind obj).1 = true) := by
  refine ⟨?_, ?_, ?_⟩
  · intro hk
    rw [assess_pod_eq kind obj hk]
    by_cases hsucc : obj.phase = "Succeeded"
    · rw [if_pos hsucc]
      refine ⟨?_, ?_, ?_⟩
      · simp [podReadySpec, hsucc]
      · intro hfail
        have hbad : ("Succeeded" : String) = "Failed" := hsucc.symm.trans hfail
        exact absurd hbad (by decide)
      · intro _ hns _
        exact absurd hsucc hns
    · rw [if_neg hsucc]
      by_cases hfail : obj.phase = "Failed"
      · rw [if_pos hfail]
        refine ⟨?_, fun _ => rfl, ?_⟩
        · simp only [podReadySpec]
          constructor
          · intro hcon
            cases hcon
          · rintro (⟨hrun, -⟩ | hs)
            · have hbad : ("Failed" : String) = "Running" := hfail.symm.trans hrun
              exact absurd hbad (by decide)
            · exact absurd hs hsucc
        · intro _ _ hnf
          exact absurd hfail hnf
      · rw [if_neg hfail]
        by_cases hcond : obj.phase = "Running" ∧ (conditionStatus obj.conditions "Ready").2 ∧
            (conditionStatus obj.conditions "Ready").1
        · rw [if_pos hcond]
          refine ⟨?_, ?_, ?_⟩
          · simp only [true_iff]
            exact Or.inl ⟨hcond.1, (conditionStatus_true_iff obj.conditions "Ready"
              hReady).mp ⟨hcond.2.2, hcond.2.1⟩⟩
          · intro hf
            exact absurd hf hfail
          · intro hcon
            cases hcon
        · rw [if_neg hcond]
          refine ⟨?_, fun _ => rfl, fun _ _ _ => rfl⟩
          simp only [Bool.false_eq_true, false_iff, podReadySpec]
          rintro (⟨hrun, htrue⟩ | hs)
          · rcases (conditionStatus_true_iff obj.conditions "Ready" hReady).mpr htrue
              with ⟨h1, h2⟩
            exact hcond ⟨hrun, h2, h1⟩
          · exact absurd hs hsucc
  · intro hk
    rw [assess_deployment_eq kind obj hk]
    by_cases hcond : (if obj.specReplicas = 0 then 1 else obj.specReplicas) ≤
        obj.readyReplicas ∧ (¬(conditionStatus obj.conditions "Available").2 ∨
          (conditionStatus obj.conditions "Available").1)
    · rw [if_pos hcond]
      simp only [true_iff]
      refine ⟨hcond.1, ?_⟩
      refine (conditionStatus_all_iff obj.conditions "Available" hAvail).mp ?_
      rcases hcond.2 with h2 | h2
      · exact Or.inl (by simpa using h2)
      · exact Or.inr h2
    · rw [if_neg hcond]
      simp only [Bool.false_eq_true, false_iff, deploymentReadySpec]
      rintro ⟨h1, h2⟩
      refine hcond ⟨h1, ?_⟩
      rcases (conditionStatus_all_iff obj.conditions "Available" hAvail).mpr h2
        with h3 | h3
      · exact Or.inl (by simp [h3])
      · exact Or.inr h3
  · intro h1 h2
    simp [assessResourceReadiness, h1, h2]

/-- Witness for C4: the sample running Pod with a true Ready condition is
classified ready. -/
theorem claimC4_readiness_classification_witness :
    (assessResourceReadiness "Pod" samplePodObj).1 = true :=
  ((claimC4_readiness_classification "Pod" samplePodObj (by decide) (by decide)).1
    (by decide)).1.mpr (Or.inl ⟨rfl, ⟨{ condType := "Ready", condStatus := "True" },
      by decide, by decide, by decide⟩⟩)

/-! ## C5: the written status tracks the evaluated resources -/

/-- The `allReady` component of the evaluation loop is exactly: every
resource that is not skipped by the lazy rule is live and ready. -/
theorem evalResources_fst (world : World) (ns : String) (pre : Bool)
    (ts : List ResourceTemplate) :
    (evalResources world ns pre ts).1 =
      ts.all (fun t => (pre && isLazyProvisionedResource t) ||
        liveResourceReady world ns t) := by
  induction ts with
  | nil => rfl
  | cons t rest ih =>
    simp only [evalResources, List.all_cons]
    by_cases hskip : pre = true ∧ isLazyProvisionedResource t = true
    · rw [if_pos hskip]
      have hpl : (pre && isLazyProvisionedResource t) = true := by
        simp [hskip.1, hskip.2]
      rw [ih, hpl]
      simp
    · have hpl : (pre && isLazyProvisionedResource t) = false := by
        cases hp : pre <;> cases hl : isLazyProvisionedResource t <;> simp_all
      rw [if_neg hskip]
      rcases hw : world (keyOf ns t) with _ | obj
      · have hlive : liveResourceReady world ns t = false := by
          simp [liveResourceReady, hw]
        simp [hpl, hlive]
      · have hlive : liveResourceReady world ns t =
            (assessResourceReadiness t.kind obj).1 := by
          simp [liveResourceReady, hw]
        simp only [hpl, Bool.false_or, hlive, ih]

/-- C5, amended: after the reconciler's status write, the claim's
`claimStatus` data equals `"ready"` iff every rendered resource the
evaluation does not skip under the lazy rule — all resources for a
handed-out claim, the non-lazy ones while pre-provisioned — is live and
passes its readiness predicate (missing resources count as not ready);
otherwise it is `"pending"`. -/
theorem claimC5_status_iff_evaluated_ready (world : World) (store : Store)
    (c : StoreClaim) (allReady : Bool) (summary : String)
    (sts : List ResourceReadiness)
    (heval : evaluateClaimReadiness world c = .ok (allReady, summary, sts))
    (c' : StoreClaim)
    (hafter : getClaim (updateClaimReadinessStatus store c.ns c.name allReady
        summary sts).1 c.ns c.name = some c') :
    (c'.claimStatus = "ready" ↔ evaluatedResourcesReady world c = true) ∧
    (c'.claimStatus = "ready" ∨ c'.claimStatus = "pending") := by
  have hs := claimStatus_after_update store c.ns c.name allReady summary sts c' hafter
  have hall : allReady = evaluatedResourcesReady world c := by
    unfold evaluateClaimReadiness at heval
    rcases hts : templatesFromClaim c with e | ts
    · rw [hts] at heval
      cases heval
    · rw [hts] at heval
      simp only at heval
      have h1 := congrArg (fun x => match x with
        | Except.ok (a, _, _) => a
        | Except.error _ => false) heval
      simp only at h1
      rw [← h1, evalResources_fst]
      unfold evaluatedResourcesReady
      rw [hts]
  rw [hs, hall]
  rcases hb : evaluatedResourcesReady world c with _ | _
  · refine ⟨?_, Or.inr rfl⟩
    simp [statusValueFor]
  · refine ⟨?_, Or.inl rfl⟩
    simp [statusValueFor]

/-- Witness for C5 (amended): evaluating the sample claim against a world
where its Pod is ready and writing the status leaves `claimStatus =
"ready"`, matching the evaluated-resources predicate. -/
theorem claimC5_status_iff_evaluated_ready_witness :
    sampleEvaluatedClaim.claimStatus = "ready" ↔
      evaluatedResourcesReady sampleWorld sampleClaim = true :=
  (claimC5_status_iff_evaluated_ready sampleWorld [sampleClaim] sampleClaim true
    "all resources ready" sampleEvaluatedClaim.claimResourcesStatus (by rfl)
    sampleEvaluatedClaim (by decide)).1

/-- C5 as frozen is false: it requires `claimStatus = "ready"` iff every
NON-LAZY rendered resource is ready, with no pre-provisioned guard. A
handed-out claim whose only rendered resource is lazy has no non-lazy
resource at all — the frozen reading demands `"ready"` — yet the evaluation
still includes the lazy resource, finds it missing, and writes
`"pending"`. -/
theorem claimC5_counterexample :
    nonLazyResourcesReady (fun _ => none) lazyOnlyClaim = true ∧
    evaluateClaimReadiness (fun _ => none) lazyOnlyClaim =
      .ok (false, "0/1 resources ready",
        [missingReadiness lazyOnlyClaim.ns sampleLazyTemplate]) ∧
    (getClaim (updateClaimReadinessStatus [lazyOnlyClaim] lazyOnlyClaim.ns
        lazyOnlyClaim.name false "0/1 resources ready"
        [missingReadiness lazyOnlyClaim.ns sampleLazyTemplate]).1
      lazyOnlyClaim.ns lazyOnlyClaim.name).map (fun x => x.claimStatus) =
      some "pending" ∧
    ¬((some "pending" = some "ready") ↔
      nonLazyResourcesReady (fun _ => none) lazyOnlyClaim = true) := by
  exact ⟨by decide, by rfl, by decide, by decide⟩

/-! ## C8: the status write is idempotent -/

/-- The readiness evaluation only reads the rendered resources, the
pre-provisioned annotation and the namespace, so overwriting the status
triplet does not change it. -/
theorem evaluate_ignores_status (world : World) (c : StoreClaim)
    (v s : String) (r : List ResourceReadiness) :
    evaluateClaimReadiness world
      { c with claimStatus := v, claimStatusMessage := s, claimResourcesStatus := r } =
      evaluateClaimReadiness world c := rfl

/-- C8: `updateClaimReadinessStatus` skips the write when the stored
status/message/resource-status triplet already equals the new one, and a
second evaluate-and-write pass over an unchanged world issues no update. -/
theorem claimC8_idempotent_status_write (world : World) (store : Store)
    (ns name : String) :
    (∀ c a s r, getClaim store ns name = some c →
      c.claimStatus = statusValueFor a → c.claimStatusMessage = s →
      c.claimResourcesStatus = r →
      updateClaimReadinessStatus store ns name a s r = (store, false)) ∧
    (∀ st1 wrote1, reconcileStatusPass world store ns name = .ok (st1, wrote1) →
      reconcileStatusPass world st1 ns name = .ok (st1, false)) := by
  constructor
  · intro c a s r hget h1 h2 h3
    simp only [updateClaimReadinessStatus, hget]
    rw [if_pos ⟨h1, h2, h3⟩]
  · intro st1 wrote1 h
    rcases hget : getClaim store ns name with _ | c
    · simp only [reconcileStatusPass, hget, Except.ok.injEq, Prod.mk.injEq] at h
      have hst : st1 = store := h.1.symm
      subst hst
      simp only [reconcileStatusPass, hget]
    · rcases heval : evaluateClaimReadiness world c with e | trip
      · simp only [reconcileStatusPass, hget, heval] at h
        exact Except.noConfusion h
      · rcases trip with ⟨a, s, r⟩
        simp only [reconcileStatusPass, hget, heval, Except.ok.injEq] at h
        by_cases hskip : c.claimStatus = statusValueFor a ∧
            c.claimStatusMessage = s ∧ c.claimResourcesStatus = r
        · have hupd : updateClaimReadinessStatus store ns name a s r = (store, false) := by
            simp only [updateClaimReadinessStatus, hget]
            rw [if_pos hskip]
          rw [hupd] at h
          have hst : st1 = store := (congrArg Prod.fst h).symm
          subst hst
          simp only [reconcileStatusPass, hget, heval]
          rw [hupd]
        · have hkey := getClaim_key store ns name c hget
          have hupd : updateClaimReadinessStatus store ns name a s r =
              (replaceClaim store ns name
                { c with
                    claimStatus := statusValueFor a
                    claimStatusMessage := s
                    claimResourcesStatus := r }, true) := by
            simp only [updateClaimReadinessStatus, hget]
            rw [if_neg hskip]
          rw [hupd] at h
          have hst : st1 = replaceClaim store ns name
              { c with
                  claimStatus := statusValueFor a
                  claimStatusMessage := s
                  claimResourcesStatus := r } := (congrArg Prod.fst h).symm
          subst hst
          have hget1 : getClaim (replaceClaim store ns name
              { c with
                  claimStatus := statusValueFor a
                  claimStatusMessage := s
                  claimResourcesStatus := r }) ns name = some
              { c with
                  claimStatus := statusValueFor a
                  claimStatusMessage := s
                  claimResourcesStatus := r } := by
            rw [getClaim_replaceClaim store ns name
              { c with
                  claimStatus := statusValueFor a
                  claimStatusMessage := s
                  claimResourcesStatus := r }
              (show c.ns = ns from hkey.1) (show c.name = name from hkey.2), hget]
            rfl
          have hupd2 : updateClaimReadinessStatus (replaceClaim store ns name
              { c with
                  claimStatus := statusValueFor a
                  claimStatusMessage := s
                  claimResourcesStatus := r }) ns name a s r =
              (replaceClaim store ns name
                { c with
                    claimStatus := statusValueFor a
                    claimStatusMessage := s
                    claimResourcesStatus := r }, false) := by
            simp [updateClaimReadinessStatus, hget1]
          simp only [reconcileStatusPass, hget1,
            evaluate_ignores_status world c (statusValueFor a) s r, heval]
          rw [hupd2]

/-- Witness for C8: the skip clause fires on a claim already carrying the
evaluated triplet, and the second pass after a real write issues none. -/
theorem claimC8_idempotent_status_write_witness :
    updateClaimReadinessStatus [sampleReadyClaim] "default" "claim-abcd1234" true
        "all resources ready" [] = ([sampleReadyClaim], false) ∧
    reconcileStatusPass sampleWorld [sampleEvaluatedClaim] "default" "claim-abcd1234" =
      .ok ([sampleEvaluatedClaim], false) :=
  ⟨(claimC8_idempotent_status_write (fun _ => none) [sampleReadyClaim] "default"
      "claim-abcd1234").1 sampleReadyClaim true "all resources ready" []
      (by decide) (by decide) (by decide) (by decide),
   (claimC8_idempotent_status_write sampleWorld [sampleClaim] "default"
      "claim-abcd1234").2 [sampleEvaluatedClaim] true (by rfl)⟩

/-! ## C6: expiry handling in `Reconcile` -/

/-- The expiry sweep's deletion condition for one claim. -/
def sweepExpired (now : Int) (c : StoreClaim) : Prop :=
  isPreProvisionedClaim c = false ∧ ∃ e, c.expiresAtAnn = some e ∧ e ≤ now

theorem getClaim_cons (c : StoreClaim) (rest : Store) (ns name : String) :
    getClaim (c :: rest) ns name =
      if c.ns = ns ∧ c.name = name then some c else getClaim rest ns name := by
  simp only [getClaim, List.find?]
  by_cases h : c.ns = ns ∧ c.name = name
  · simp [h]
  · simp [h]

theorem getClaim_removeClaim_self (store : Store) (ns name : String) :
    getClaim (removeClaim store ns name) ns name = none := by
  induction store with
  | nil => rfl
  | cons c rest ih =>
    by_cases hc : c.ns = ns ∧ c.name = name
    · simp only [removeClaim, List.filter_cons]
      rw [if_neg (by simp only [decide_eq_true_eq]; exact not_not_intro hc)]
      exact ih
    · simp only [removeClaim, List.filter_cons]
      rw [if_pos (by simp only [decide_eq_true_eq]; exact hc)]
      rw [getClaim_cons]
      rw [if_neg hc]
      exact ih

theorem getClaim_removeClaim_other (store : Store) (ns name ns' name' : String)
    (h : ¬(ns = ns' ∧ name = name')) :
    getClaim (removeClaim store ns' name') ns name = getClaim store ns name := by
  induction store with
  | nil => rfl
  | cons c rest ih =>
    by_cases hc : c.ns = ns' ∧ c.name = name'
    · have hcne : ¬(c.ns = ns ∧ c.name = name) := by
        rintro ⟨h1, h2⟩
        exact h ⟨h1 ▸ hc.1, h2 ▸ hc.2⟩
      simp only [removeClaim, List.filter_cons]
      rw [if_neg (by simp only [decide_eq_true_eq]; exact not_not_intro hc)]
      rw [getClaim_cons, if_neg hcne]
      exact ih
    · simp only [removeClaim, List.filter_cons]
      rw [if_pos (by simp only [decide_eq_true_eq]; exact hc)]
      rw [getClaim_cons, getClaim_cons]
      by_cases hck : c.ns = ns ∧ c.name = name
      · rw [if_pos hck, if_pos hck]
      · rw [if_neg hck, if_neg hck]
        exact ih

theorem worldDelete_none (w : World) (k q : ResourceKey) (h : w q = none) :
    worldDelete w k q = none := by
  unfold worldDelete
  by_cases hq : q = k
  · rw [if_pos hq]
  · rw [if_neg hq]
    exact h

theorem foldl_worldDelete_preserves_none (ts : List ResourceTemplate) (ns : String)
    (w : World) (q : ResourceKey) (h : w q = none) :
    (ts.foldl (fun w t => worldDelete w (keyOf ns t)) w) q = none := by
  induction ts generalizing w with
  | nil => exact h
  | cons t rest ih =>
    simp only [List.foldl_cons]
    exact ih _ (worldDelete_none w (keyOf ns t) q h)

theorem foldl_worldDelete_mem_none (ts : List ResourceTemplate) (ns : String)
    (w : World) (t : ResourceTemplate) (ht : t ∈ ts) :
    (ts.foldl (fun w t => worldDelete w (keyOf ns t)) w) (keyOf ns t) = none := by
  induction ts generalizing w with
  | nil => cases ht
  | cons t0 rest ih =>
    simp only [List.foldl_cons]
    rcases List.mem_cons.mp ht with rfl | hmem
    · exact foldl_worldDelete_preserves_none rest ns _ (keyOf ns t)
        (by unfold worldDelete; rw [if_pos rfl])
    · exact ih _ hmem

theorem foldl_worldDelete_le (ts : List ResourceTemplate) (ns : String)
    (w : World) (q : ResourceKey) :
    (ts.foldl (fun w t => worldDelete w (keyOf ns t)) w) q = none ∨
      (ts.foldl (fun w t => worldDelete w (keyOf ns t)) w) q = w q := by
  induction ts generalizing w with
  | nil => exact Or.inr rfl
  | cons t rest ih =>
    simp only [List.foldl_cons]
    rcases ih (worldDelete w (keyOf ns t)) with h | h
    · exact Or.inl h
    · rw [h]
      unfold worldDelete
      by_cases hq : q = keyOf ns t
      · rw [if_pos hq]
        exact Or.inl rfl
      · rw [if_neg hq]
        exact Or.inr rfl

theorem cleanupClaimResources_ok (world : World) (c : StoreClaim)
    (ts : List ResourceTemplate) (hts : templatesFromClaim c = .ok ts) :
    cleanupClaimResources world c =
      .ok (ts.foldl (fun w t => worldDelete w (keyOf c.ns t)) world) := by
  unfold cleanupClaimResources
  rw [hts]

theorem getClaim_removeClaim_none (store : Store) (ns name ns' name' : String)
    (h : getClaim store ns name = none) :
    getClaim (removeClaim store ns' name') ns name = none := by
  by_cases hk : ns = ns' ∧ name = name'
  · rcases hk with ⟨rfl, rfl⟩
    exact getClaim_removeClaim_self store ns name
  · rw [getClaim_removeClaim_other store ns name ns' name' hk]
    exact h

theorem cleanupClaimResources_preserves_none (world : World) (c : StoreClaim)
    (w1 : World) (h : cleanupClaimResources world c = .ok w1) (q : ResourceKey)
    (hq : world q = none) : w1 q = none := by
  unfold cleanupClaimResources at h
  rcases hts : templatesFromClaim c with e | ts
  · rw [hts] at h
    cases h
  · rw [hts] at h
    have hw := Except.ok.inj h
    rw [← hw]
    exact foldl_worldDelete_preserves_none ts c.ns world q hq

theorem cleanupClaimResources_le (world : World) (c : StoreClaim)
    (w1 : World) (h : cleanupClaimResources world c = .ok w1) (q : ResourceKey) :
    w1 q = none ∨ w1 q = world q := by
  unfold cleanupClaimResources at h
  rcases hts : templatesFromClaim c with e | ts
  · rw [hts] at h
    cases h
  · rw [hts] at h
    have hw := Except.ok.inj h
    rw [← hw]
    exact foldl_worldDelete_le ts c.ns world q

theorem sweepClaims_ok (now : Int) (l : List StoreClaim) (store : Store) (world : World)
    (hvalid : ∀ x ∈ l, (templatesFromClaim x).isOk = true) :
    ∃ st' w', sweepClaims now l store world = .ok (st', w') := by
  induction l generalizing store world with
  | nil => exact ⟨store, world, rfl⟩
  | cons c rest ih =>
    have hvr : ∀ x ∈ rest, (templatesFromClaim x).isOk = true :=
      fun x hx => hvalid x (List.mem_cons_of_mem c hx)
    unfold sweepClaims
    by_cases hpre : isPreProvisionedClaim c = true
    · rw [if_pos hpre]
      exact ih store world hvr
    · rw [if_neg hpre]
      rcases hann : c.expiresAtAnn with _ | e
    
      · exact ih store world hvr
      · by_cases hlt : now < e
        · simp only [if_pos hlt]
          exact ih store world hvr
        · simp only [if_neg hlt]
          rcases hts : templatesFromClaim c with err | ts
          · have := hvalid c (by simp)
            rw [hts] at this
            cases this
          · rw [cleanupClaimResources_ok world c ts hts]
            exact ih _ _ hvr

theorem sweepClaims_preserves_claim_none (now : Int) (l : List StoreClaim)
    (store : Store) (world : World) (st' : Store) (w' : World)
    (h : sweepClaims now l store world = .ok (st', w')) (ns name : String)
    (hnone : getClaim store ns name = none) : getClaim st' ns name = none := by
  induction l generalizing store world with
  | nil =>
    cases h
    exact hnone
  | cons x rest ih =>
    unfold sweepClaims at h
    by_cases hxpre : isPreProvisionedClaim x = true
    · rw [if_pos hxpre] at h
      exact ih store world h hnone
    · rw [if_neg hxpre] at h
      rcases hxann : x.expiresAtAnn with _ | ex
      · rw [hxann] at h
        exact ih store world h hnone
      · rw [hxann] at h
        simp only at h
        by_cases hlt : now < ex
        · rw [if_pos hlt] at h
          exact ih store world h hnone
        · rw [if_neg hlt] at h
          rcases hcl : cleanupClaimResources world x with err | w1
          · rw [hcl] at h
            cases h
          · rw [hcl] at h
            simp only at h
            exact ih _ _ h (getClaim_removeClaim_none store ns name x.ns x.name hnone)

theorem sweepClaims_preserves_world_none (now : Int) (l : List StoreClaim)
    (store : Store) (world : World) (st' : Store) (w' : World)
    (h : sweepClaims now l store world = .ok (st', w')) (q : ResourceKey)
    (hq : world q = none) : w' q = none := by
  induction l generalizing store world with
  | nil =>
    cases h
    exact hq
  | cons x rest ih =>
    unfold sweepClaims at h
    by_cases hxpre : isPreProvisionedClaim x = true
    · rw [if_pos hxpre] at h
      exact ih store world h hq
    · rw [if_neg hxpre] at h
      rcases hxann : x.expiresAtAnn with _ | ex
      · rw [hxann] at h
        exact ih store world h hq
      · rw [hxann] at h
        simp only at h
        by_cases hlt : now < ex
        · rw [if_pos hlt] at h
          exact ih store world h hq
        · rw [if_neg hlt] at h
          rcases hcl : cleanupClaimResources world x with err | w1
          · rw [hcl] at h
            cases h
          · rw [hcl] at h
            simp only at h
            exact ih _ _ h (cleanupClaimResources_preserves_none world x w1 hcl q hq)

theorem sweepClaims_world_le (now : Int) (l : List StoreClaim)
    (store : Store) (world : World) (st' : Store) (w' : World)
    (h : sweepClaims now l store world = .ok (st', w')) (q : ResourceKey) :
    w' q = none ∨ w' q = world q := by
  induction l generalizing store world with
  | nil =>
    cases h
    exact Or.inr rfl
  | cons x rest ih =>
    unfold sweepClaims at h
    by_cases hxpre : isPreProvisionedClaim x = true
    · rw [if_pos hxpre] at h
      exact ih store world h
    · rw [if_neg hxpre] at h
      rcases hxann : x.expiresAtAnn with _ | ex
      · rw [hxann] at h
        exact ih store world h
      · rw [hxann] at h
        simp only at h
        by_cases hlt : now < ex
        · rw [if_pos hlt] at h
          exact ih store world h
        · rw [if_neg hlt] at h
          rcases hcl : cleanupClaimResources world x with err | w1
          · rw [hcl] at h
            cases h
          · rw [hcl] at h
            simp only at h
            rcases ih _ _ h with h1 | h1
            · exact Or.inl h1
            · rw [h1]
              exact cleanupClaimResources_le world x w1 hcl q

theorem sweepClaims_deletes (now : Int) (l : List StoreClaim) (store : Store)
    (world : World) (st' : Store) (w' : World) (c : StoreClaim)
    (ts : List ResourceTemplate) (e : Int)
    (h : sweepClaims now l store world = .ok (st', w'))
    (hmem : c ∈ l) (hpre : isPreProvisionedClaim c = false)
    (hann : c.expiresAtAnn = some e) (he : e ≤ now)
    (hts : templatesFromClaim c = .ok ts) :
    getClaim st' c.ns c.name = none ∧ ∀ t ∈ ts, w' (keyOf c.ns t) = none := by
  induction l generalizing store world with
  | nil => cases hmem
  | cons x rest ih =>
    rcases List.mem_cons.mp hmem with rfl | hmem'
    · unfold sweepClaims at h
      rw [if_neg (by rw [hpre]; exact Bool.false_ne_true)] at h
      rw [hann] at h
      simp only at h
      rw [if_neg (not_lt.mpr he)] at h
      rw [cleanupClaimResources_ok world c ts hts] at h
      simp only at h
      constructor
      · exact sweepClaims_preserves_claim_none now rest _ _ st' w' h c.ns c.name
          (getClaim_removeClaim_self store c.ns c.name)
      · intro t ht
        exact sweepClaims_preserves_world_none now rest _ _ st' w' h (keyOf c.ns t)
          (foldl_worldDelete_mem_none ts c.ns world t ht)
    · unfold sweepClaims at h
      by_cases hxpre : isPreProvisionedClaim x = true
      · rw [if_pos hxpre] at h
        exact ih store world h hmem'
      · rw [if_neg hxpre] at h
        rcases hxann : x.expiresAtAnn with _ | ex
        · rw [hxann] at h
          exact ih store world h hmem'
        · rw [hxann] at h
          simp only at h
          by_cases hlt : now < ex
          · rw [if_pos hlt] at h
            exact ih store world h hmem'
          · rw [if_neg hlt] at h
            rcases hcl : cleanupClaimResources world x with err | w1
            · rw [hcl] at h
              cases h
            · rw [hcl] at h
              simp only at h
              exact ih _ _ h hmem'

theorem sweepClaims_preserves_live (now : Int) (l : List StoreClaim)
    (store : Store) (world : World) (st' : Store) (w' : World)
    (h : sweepClaims now l store world = .ok (st', w')) (ns name : String)
    (hsafe : ∀ x ∈ l, x.ns = ns ∧ x.name = name → ¬sweepExpired now x) :
    getClaim st' ns name = getClaim store ns name := by
  induction l generalizing store world with
  | nil =>
    cases h
    rfl
  | cons x rest ih =>
    have hsafe' : ∀ y ∈ rest, y.ns = ns ∧ y.name = name → ¬sweepExpired now y :=
      fun y hy => hsafe y (List.mem_cons_of_mem x hy)
    unfold sweepClaims at h
    by_cases hxpre : isPreProvisionedClaim x = true
    · rw [if_pos hxpre] at h
      exact ih store world h hsafe'
    · rw [if_neg hxpre] at h
      rcases hxann : x.expiresAtAnn with _ | ex
      · rw [hxann] at h
        exact ih store world h hsafe'
      · rw [hxann] at h
        simp only at h
        by_cases hlt : now < ex
        · rw [if_pos hlt] at h
          exact ih store world h hsafe'
        · rw [if_neg hlt] at h
          rcases hcl : cleanupClaimResources world x with err | w1
          · rw [hcl] at h
            cases h
          · rw [hcl] at h
            simp only at h
            have hxexp : sweepExpired now x :=
              ⟨Bool.not_eq_true _ ▸ (Bool.eq_false_iff.mpr hxpre), ex, hxann, not_lt.mp hlt⟩
            have hxkey : ¬(ns = x.ns ∧ name = x.name) := by
              rintro ⟨h1, h2⟩
              exact hsafe x (by simp) ⟨h1.symm, h2.symm⟩ hxexp
            rw [ih _ _ h hsafe']
            exact getClaim_removeClaim_other store ns name x.ns x.name hxkey

theorem ensureClaimResources_ok (world : World) (c : StoreClaim)
    (ts : List ResourceTemplate) (hts : templatesFromClaim c = .ok ts) :
    ensureClaimResources world c =
      .ok (ensureResources world c.ns (isPreProvisionedClaim c) ts) := by
  unfold ensureClaimResources
  rw [hts]

theorem evaluateClaimReadiness_ok (world : World) (c : StoreClaim)
    (ts : List ResourceTemplate) (hts : templatesFromClaim c = .ok ts) :
    ∃ a s r, evaluateClaimReadiness world c = .ok (a, s, r) := by
  unfold evaluateClaimReadiness
  rw [hts]
  exact ⟨_, _, _, rfl⟩

theorem getClaim_update_isSome (store : Store) (ns name : String) (a : Bool)
    (s : String) (r : List ResourceReadiness) (c : StoreClaim)
    (hget : getClaim store ns name = some c) :
    ∃ c', getClaim (updateClaimReadinessStatus store ns name a s r).1 ns name = some c' := by
  have hkey := getClaim_key store ns name c hget
  unfold updateClaimReadinessStatus
  rw [hget]
  simp only
  by_cases hskip : c.claimStatus = statusValueFor a ∧ c.claimStatusMessage = s ∧
      c.claimResourcesStatus = r
  · rw [if_pos hskip]
    exact ⟨c, hget⟩
  · rw [if_neg hskip]
    refine ⟨{ c with
        claimStatus := statusValueFor a
        claimStatusMessage := s
        claimResourcesStatus := r }, ?_⟩
    rw [getClaim_replaceClaim store ns name
      { c with
          claimStatus := statusValueFor a
          claimStatusMessage := s
          claimResourcesStatus := r }
      (show c.ns = ns from hkey.1) (show c.name = name from hkey.2), hget]
    rfl

/-- The single-claim deletion path of `Reconcile` (part_003:84-92): once the
sweep has run and the claim is still present, a strict `After` at the
check's clock read cascade-deletes the resources and removes the claim. -/
theorem reconcile_delete_after_sweep (cfg : ReconcileConfig)
    (sweepNow defaultNow checkNow untilNow : Int) (store : Store) (world : World)
    (name : String) (c : StoreClaim) (ts : List ResourceTemplate)
    (st1 : Store) (w1 : World)
    (hsweep : cleanupExpiredClaims cfg.watchNamespace sweepNow store world = .ok (st1, w1))
    (hget1 : getClaim st1 cfg.watchNamespace name = some c)
    (hmanaged : c.managed = true)
    (hnotpre : isPreProvisionedClaim c = false)
    (hts : templatesFromClaim c = .ok ts)
    (hlt : c.expiresAtAnn.getD (defaultNow + cfg.defaultTTL) < checkNow) :
    Reconcile cfg sweepNow defaultNow checkNow untilNow store world
        cfg.watchNamespace name =
      .ok ⟨removeClaim st1 cfg.watchNamespace name,
        ts.foldl (fun w t => worldDelete w (keyOf c.ns t)) w1, false, none⟩ := by
  unfold Reconcile
  rw [if_neg (fun hh => hh rfl), hsweep]
  simp only
  rw [hget1]
  simp only [hmanaged, not_true_eq_false, if_false]
  rw [if_pos ⟨by rw [hnotpre]; exact Bool.false_ne_true, hlt⟩]
  rw [cleanupClaimResources_ok w1 c ts hts]

/-- C6, confirmed: for a managed, non-pre-provisioned claim, a reconcile
cascade-deletes the claim's rendered resources, deletes the claim, and
returns without ensuring resources, evaluating readiness or requeueing,
whenever the clock has reached the claim's expiry — for a parseable
expires-at `e`, when the sweep's read satisfies `e ≤ now` or the expiry
check's later read is strictly past `e`; for an unparseable annotation, when
the in-memory default `now + defaultTTL` is not after the read that computed
it (the claim's `now ≥ expires-at` with both occurrences of `now` at
part_003:81, which with the strictly advancing clock puts the check's read
past it) or strictly before the check's read. When even the check's read is
still before the expiry (`now < expires-at` at part_003:84), the claim is
not deleted. The clock hypotheses state the program order of the
`time.Now()` reads, the second strict because the clock advances between
the default computation and the check; the remaining hypotheses fix one
claim per key and require every stored claim's rendered resources to
decode, so the sweep cannot abort. -/
theorem claimC6_expiry_deletion (cfg : ReconcileConfig)
    (sweepNow defaultNow checkNow untilNow : Int) (store : Store)
    (world : World) (name : String) (c : StoreClaim) (ts : List ResourceTemplate)
    (hclock1 : sweepNow ≤ defaultNow) (hclock2 : defaultNow < checkNow)
    (hvalid : ∀ x ∈ store, (templatesFromClaim x).isOk = true)
    (hkey : ∀ x ∈ store, x.ns = cfg.watchNamespace ∧ x.name = name → x = c)
    (hget : getClaim store cfg.watchNamespace name = some c)
    (hmanaged : c.managed = true)
    (hnotpre : isPreProvisionedClaim c = false)
    (hts : templatesFromClaim c = .ok ts) :
    ((match c.expiresAtAnn with
      | some e => e ≤ sweepNow ∨ e < checkNow
      | none => defaultNow + cfg.defaultTTL ≤ defaultNow ∨
          defaultNow + cfg.defaultTTL < checkNow) →
      ∃ out, Reconcile cfg sweepNow defaultNow checkNow untilNow store world
          cfg.watchNamespace name = .ok out ∧
        getClaim out.store cfg.watchNamespace name = none ∧
        (∀ t ∈ ts, out.world (keyOf c.ns t) = none) ∧
        out.statusWritten = false ∧ out.requeueAfter = none ∧
        (∀ q, out.world q = none ∨ out.world q = world q)) ∧
    ((match c.expiresAtAnn with
      | some e => checkNow < e
      | none => checkNow < defaultNow + cfg.defaultTTL) →
      ∃ out c', Reconcile cfg sweepNow defaultNow checkNow untilNow store world
          cfg.watchNamespace name = .ok out ∧
        getClaim out.store cfg.watchNamespace name = some c') := by
  have hcmem : c ∈ store := List.mem_of_find?_eq_some hget
  have hckey := getClaim_key store cfg.watchNamespace name c hget
  have hvfilter : ∀ x ∈ store.filter
      (fun x => x.ns = cfg.watchNamespace ∧ x.managed), (templatesFromClaim x).isOk = true :=
    fun x hx => hvalid x (List.mem_of_mem_filter hx)
  obtain ⟨st1, w1, hsweep0⟩ := sweepClaims_ok sweepNow
    (store.filter (fun x => x.ns = cfg.watchNamespace ∧ x.managed)) store world hvfilter
  have hsweep : cleanupExpiredClaims cfg.watchNamespace sweepNow store world =
      .ok (st1, w1) := hsweep0
  have hcfilter : c ∈ store.filter (fun x => x.ns = cfg.watchNamespace ∧ x.managed) :=
    List.mem_filter.mpr ⟨hcmem, by simp [hckey.1, hmanaged]⟩
  have hlate : getClaim st1 cfg.watchNamespace name = some c →
      c.expiresAtAnn.getD (defaultNow + cfg.defaultTTL) < checkNow →
      ∃ out, Reconcile cfg sweepNow defaultNow checkNow untilNow store world
          cfg.watchNamespace name = .ok out ∧
        getClaim out.store cfg.watchNamespace name = none ∧
        (∀ t ∈ ts, out.world (keyOf c.ns t) = none) ∧
        out.statusWritten = false ∧ out.requeueAfter = none ∧
        (∀ q, out.world q = none ∨ out.world q = world q) := by
    intro hget1 hlt
    refine ⟨⟨removeClaim st1 cfg.watchNamespace name,
      ts.foldl (fun w t => worldDelete w (keyOf c.ns t)) w1, false, none⟩,
      reconcile_delete_after_sweep cfg sweepNow defaultNow checkNow untilNow store world
        name c ts st1 w1 hsweep hget1 hmanaged hnotpre hts hlt, ?_, ?_, rfl, rfl, ?_⟩
    · exact getClaim_removeClaim_self st1 cfg.watchNamespace name
    · intro t ht
      exact foldl_worldDelete_mem_none ts c.ns w1 t ht
    · intro q
      show List.foldl (fun w t => worldDelete w (keyOf c.ns t)) w1 ts q = none ∨
        List.foldl (fun w t => worldDelete w (keyOf c.ns t)) w1 ts q = world q
      rcases foldl_worldDelete_le ts c.ns w1 q with h1 | h1
      · exact Or.inl h1
      · rw [h1]
        exact sweepClaims_world_le sweepNow _ store world st1 w1 hsweep0 q
  constructor
  · intro hexp
    rcases hann : c.expiresAtAnn with _ | e
    · -- unparseable annotation: the sweep skips it, and the check's strictly
      -- later clock read is past the in-memory default expiry
      rw [hann] at hexp
      have hsafe : ∀ x ∈ store.filter (fun x => x.ns = cfg.watchNamespace ∧ x.managed),
          x.ns = cfg.watchNamespace ∧ x.name = name → ¬sweepExpired sweepNow x := by
        intro x hx hxkey hxexp
        have hxc : x = c := hkey x (List.mem_of_mem_filter hx) hxkey
        rcases hxexp with ⟨-, e0, he0, -⟩
        rw [hxc, hann] at he0
        cases he0
      have hget1 : getClaim st1 cfg.watchNamespace name = some c := by
        rw [sweepClaims_preserves_live sweepNow _ store world st1 w1 hsweep0
          cfg.watchNamespace name hsafe]
        exact hget
      refine hlate hget1 ?_
      rw [hann, Option.getD_none]
      rcases hexp with h | h
      · omega
      · exact h
    · rw [hann] at hexp
      by_cases hsw : e ≤ sweepNow
      · -- the sweep's non-strict comparison already deletes the claim
        have hdel := sweepClaims_deletes sweepNow _ store world st1 w1 c ts e hsweep0
          hcfilter hnotpre hann hsw hts
        have hget1 : getClaim st1 cfg.watchNamespace name = none := by
          rw [← hckey.1]
          rw [show name = c.name from hckey.2.symm]
          exact hdel.1
        refine ⟨⟨st1, w1, false, none⟩, ?_, hget1, ?_, rfl, rfl, ?_⟩
        · unfold Reconcile
          rw [if_neg (fun hh => hh rfl), hsweep]
          simp only
          rw [hget1]
        · intro t ht
          exact hdel.2 t ht
        · intro q
          exact sweepClaims_world_le sweepNow _ store world st1 w1 hsweep0 q
      · -- the expiry passed between the sweep's read and the check's read:
        -- the single-claim strict check deletes
        have hck : e < checkNow := by
          rcases hexp with h | h
          · exact absurd h hsw
          · exact h
        have hsafe : ∀ x ∈ store.filter (fun x => x.ns = cfg.watchNamespace ∧ x.managed),
            x.ns = cfg.watchNamespace ∧ x.name = name → ¬sweepExpired sweepNow x := by
          intro x hx hxkey hxexp
          have hxc : x = c := hkey x (List.mem_of_mem_filter hx) hxkey
          rcases hxexp with ⟨-, e0, he0, he0le⟩
          rw [hxc, hann] at he0
          cases he0
          exact hsw he0le
        have hget1 : getClaim st1 cfg.watchNamespace name = some c := by
          rw [sweepClaims_preserves_live sweepNow _ store world st1 w1 hsweep0
            cfg.watchNamespace name hsafe]
          exact hget
        refine hlate hget1 ?_
        rw [hann, Option.getD_some]
        exact hck
  · intro hlive
    have hsafe : ∀ x ∈ store.filter (fun x => x.ns = cfg.watchNamespace ∧ x.managed),
        x.ns = cfg.watchNamespace ∧ x.name = name → ¬sweepExpired sweepNow x := by
      intro x hx hxkey hxexp
      have hxc : x = c := hkey x (List.mem_of_mem_filter hx) hxkey
      rcases hxexp with ⟨-, e0, he0, he0le⟩
      rw [hxc] at he0
      rcases hann : c.expiresAtAnn with _ | e
      · rw [hann] at he0
        cases he0
      · rw [hann] at hlive he0
        have he0e : e = e0 := Option.some.inj he0
        have hce : checkNow < e := hlive
        exact absurd he0le (not_le.mpr (show sweepNow < e0 by omega))
    have hget1 : getClaim st1 cfg.watchNamespace name = some c := by
      rw [sweepClaims_preserves_live sweepNow _ store world st1 w1 hsweep0
        cfg.watchNamespace name hsafe]
      exact hget
    have hexpcond : ¬(¬isPreProvisionedClaim c = true ∧
        c.expiresAtAnn.getD (defaultNow + cfg.defaultTTL) < checkNow) := by
      rintro ⟨-, hlt⟩
      rcases hann : c.expiresAtAnn with _ | e
      · rw [hann] at hlt hlive
        simp only [Option.getD_none] at hlt
        exact absurd hlt (not_lt.mpr (le_of_lt hlive))
      · rw [hann] at hlt hlive
        simp only [Option.getD_some] at hlt
        exact absurd hlt (not_lt.mpr (le_of_lt hlive))
    obtain ⟨a, sm, r, heval⟩ := evaluateClaimReadiness_ok
      (ensureResources w1 c.ns (isPreProvisionedClaim c) ts) c ts hts
    obtain ⟨c', hc'⟩ := getClaim_update_isSome st1 cfg.watchNamespace name a sm r c hget1
    refine ⟨⟨(updateClaimReadinessStatus st1 cfg.watchNamespace name a sm r).1,
      ensureResources w1 c.ns (isPreProvisionedClaim c) ts,
      (updateClaimReadinessStatus st1 cfg.watchNamespace name a sm r).2,
      some (computeNextCheck cfg.reconcileInterval (isPreProvisionedClaim c) a
        (c.expiresAtAnn.getD (defaultNow + cfg.defaultTTL) - untilNow))⟩, c', ?_, hc'⟩
    unfold Reconcile
    rw [if_neg (fun hh => hh rfl), hsweep]
    simp only
    rw [hget1]
    simp only [hmanaged, not_true_eq_false, if_false]
    rw [if_neg hexpcond]
    rw [ensureClaimResources_ok w1 c ts hts]
    simp only
    rw [heval]

/-- Witness for C6: at t = 4000s (sweep read), with the later reads one and
two nanoseconds further on, the sample claim (expiry 3600s) is deleted
together with its Pod, with no status write and no requeue. -/
theorem claimC6_expiry_deletion_witness :
    ∃ out, Reconcile standardConfig (4000 * second) (4000 * second + 1)
        (4000 * second + 2) (4000 * second + 2) [sampleClaim] sampleWorld
        standardConfig.watchNamespace "claim-abcd1234" = .ok out ∧
      getClaim out.store standardConfig.watchNamespace "claim-abcd1234" = none ∧
      (∀ t ∈ [samplePodTemplate], out.world (keyOf sampleClaim.ns t) = none) ∧
      out.statusWritten = false ∧ out.requeueAfter = none ∧
      (∀ q, out.world q = none ∨ out.world q = sampleWorld q) :=
  (claimC6_expiry_deletion standardConfig (4000 * second) (4000 * second + 1)
    (4000 * second + 2) (4000 * second + 2) [sampleClaim] sampleWorld
    "claim-abcd1234" sampleClaim [samplePodTemplate] (by decide) (by decide)
    (by decide) (by decide) (by decide) rfl (by decide) rfl).1
    (by show (3600 : Int) * second ≤ 4000 * second ∨
          (3600 : Int) * second < 4000 * second + 2
        exact Or.inl (by decide))

end ClaimController
